import Mathlib

/-!
Verification of core components of the N1QL-style query engine:
three-valued OR semantics, OR filter-cover intersection, constant-value
folding, expression equivalence, the WHERE/ON predicate classifier,
the subselect plan builder, and DistinctScan key de-duplication.

Each Go function under scrutiny is translated into an executable Lean
definition; functions of the repository that are only referenced (the
`value` package, the DNF rewriter, the base-keyspace records) are
modelled from the specification, as marked in their doc comments.
-/

namespace Query

/-- Modelled from the spec: the `value` package is not part of the sampled
sources. A Value is a tagged union over JSON types; `MISSING` and `NULL` are
distinct absence values. Array/object/binary values are omitted here: none
of the verified operations distinguishes them from other non-absent values. -/
inductive Value where
  | missing
  | null
  | bool (b : Bool)
  | num (n : Int)
  | str (s : String)
deriving DecidableEq, Repr

/-- Modelled from the spec: `Truth()`; MISSING and NULL are false, a boolean
is itself, a number is true iff nonzero, a string is true iff nonempty. -/
def Value.truth : Value → Bool
  | .missing => false
  | .null => false
  | .bool b => b
  | .num n => n != 0
  | .str s => s != ""

def Value.isMissing : Value → Bool
  | .missing => true
  | _ => false

def Value.isNull : Value → Bool
  | .null => true
  | _ => false

/-- Modelled from the spec: `Equals(other)` returns a Value, not a bool —
MISSING if either side is MISSING, else NULL if either side is NULL, else a
BOOLEAN by deep structural equality. -/
def Value.equals (a b : Value) : Value :=
  if a.isMissing || b.isMissing then .missing
  else if a.isNull || b.isNull then .null
  else .bool (a == b)

/-! ## C1: `Or.Apply` (expression/logic_or.go)

The Go loop walks the operand values keeping `missing` and `null` flags,
returns TRUE as soon as a value of any other type has `Truth() == true`,
and afterwards prefers NULL over MISSING over FALSE. -/

/-- Embedding of the loop body of `Or.Apply`: `go args null missing`. -/
def orApplyGo : List Value → Bool → Bool → Value
  | [], null, missing =>
      if null then .null else if missing then .missing else .bool false
  | a :: rest, null, missing =>
      match a with
      | .null => orApplyGo rest true missing
      | .missing => orApplyGo rest null true
      | _ => if a.truth then .bool true else orApplyGo rest null missing

/-- `Or.Apply(context, args...)` from expression/logic_or.go. -/
def orApply (args : List Value) : Value :=
  orApplyGo args false false

theorem orApplyGo_spec (args : List Value) (null missing : Bool) :
    orApplyGo args null missing =
      if args.any Value.truth then .bool true
      else if null || args.any Value.isNull then .null
      else if missing || args.any Value.isMissing then .missing
      else .bool false := by
  induction args generalizing null missing with
  | nil => simp [orApplyGo]
  | cons a rest ih =>
    cases a with
    | null =>
        simp [orApplyGo, ih, Value.truth, Value.isNull, Value.isMissing]
    | missing =>
        simp [orApplyGo, ih, Value.truth, Value.isNull, Value.isMissing]
    | bool b =>
        cases b <;>
          simp [orApplyGo, ih, Value.truth, Value.isNull, Value.isMissing]
    | num n =>
        by_cases h : n = 0 <;>
          simp [orApplyGo, ih, Value.truth, Value.isNull, Value.isMissing, h]
    | str s =>
        by_cases h : s = "" <;>
          simp [orApplyGo, ih, Value.truth, Value.isNull, Value.isMissing, h]

/-- C1: `Or.Apply` returns TRUE if any operand's `Truth()` is true; otherwise
NULL if any operand is NULL; otherwise MISSING if any operand is MISSING;
otherwise FALSE — priority TRUE > NULL > MISSING > FALSE. -/
theorem orApply_three_valued (args : List Value) :
    orApply args =
      if args.any Value.truth then .bool true
      else if args.any Value.isNull then .null
      else if args.any Value.isMissing then .missing
      else .bool false := by
  simpa using orApplyGo_spec args false false

/-! ## C2: `Or.FilterCovers` (expression/logic_or.go)

`Or.FilterCovers` fills a scratch map with the first operand's implicit
covers, deletes every binding a later operand does not agree with under
`Equals(...).Truth()`, and merges the survivors into the supplied map.
A covers map is a Go `map[string]value.Value`; we embed it as an
association list with unique keys, each operand represented by the covers
its own `FilterCovers` writes into a fresh map. -/

abbrev CMap := List (String × Value)

abbrev keysNodup (c : CMap) : Prop := (c.map Prod.fst).Nodup

/-- The agreement test the loop applies to a binding `(s, v)` against
operand `i`'s covers: `vi, ok := ci[s]; ok && v.Equals(vi).Truth()`. -/
def coverCheck (ci : CMap) (s : String) (v : Value) : Bool :=
  match ci.lookup s with
  | some vi => (v.equals vi).truth
  | none => false

/-- One pass of `for s, v := range c { if !ok || !v.Equals(vi).Truth() { delete(c, s) } }`. -/
def intersectStep (c ci : CMap) : CMap :=
  c.filter (fun p => coverCheck ci p.1 p.2)

/-- The operand loop of `Or.FilterCovers` (operands 1..n-1), followed by the
final merge `for s, v := range c { covers[s] = v }`; prepending the surviving
bindings gives them lookup priority, matching map overwrite. -/
def orFilterCoversGo (covers : CMap) : List CMap → CMap → CMap
  | [], c => c ++ covers
  | ci :: rest, c =>
      if ci.isEmpty then covers
      else orFilterCoversGo covers rest (intersectStep c ci)

/-- `Or.FilterCovers(covers)`: `opCovers` lists, operand by operand, the
bindings that operand contributes to a fresh covers map. -/
def orFilterCovers (opCovers : List CMap) (covers : CMap) : CMap :=
  match opCovers with
  | [] => covers
  | c0 :: rest =>
      if c0.isEmpty then covers
      else orFilterCoversGo covers rest c0

/-- The specification's intersection condition: every operand produces a
binding for the same expression text whose Value compares Equals-true to `v`. -/
def agreesAt (opCovers : List CMap) (s : String) (v : Value) : Prop :=
  ∀ c ∈ opCovers, ∃ vi, c.lookup s = some vi ∧ (v.equals vi).truth = true

theorem equals_truth_iff (v w : Value) :
    (v.equals w).truth = true ↔
      v = w ∧ v.isMissing = false ∧ v.isNull = false := by
  cases v <;> cases w <;>
    simp [Value.equals, Value.truth, Value.isMissing, Value.isNull]

theorem lookup_append (a b : CMap) (s : String) :
    (a ++ b).lookup s = ((a.lookup s).or (b.lookup s)) := by
  induction a with
  | nil => simp [List.lookup]
  | cons p rest ih =>
    by_cases h : s = p.1
    · simp [List.lookup, h]
    · have hb : (s == p.1) = false := by simpa using h
      simp [List.lookup, hb, ih]

theorem mem_of_lookup_eq_some {c : CMap} {s : String} {v : Value}
    (h : c.lookup s = some v) : (s, v) ∈ c := by
  induction c with
  | nil => simp [List.lookup] at h
  | cons p rest ih =>
    by_cases hs : s = p.1
    · subst hs
      simp [List.lookup] at h
      cases p
      simp_all
    · have hb : (s == p.1) = false := by simpa using hs
      simp [List.lookup, hb] at h
      exact List.mem_cons_of_mem _ (ih h)

theorem lookup_eq_some_of_mem {c : CMap} {s : String} {v : Value}
    (hnd : keysNodup c) (h : (s, v) ∈ c) : c.lookup s = some v := by
  induction c with
  | nil => simp at h
  | cons p rest ih =>
    rcases List.mem_cons.mp h with h1 | h1
    · subst h1
      simp [List.lookup]
    · have hs : s ≠ p.1 := by
        intro hcon
        have hm : s ∈ rest.map Prod.fst := List.mem_map.mpr ⟨(s, v), h1, rfl⟩
        rw [hcon] at hm
        exact (List.nodup_cons.mp hnd).1 hm
      have hb : (s == p.1) = false := by simpa using hs
      have hnd' : keysNodup rest := (List.nodup_cons.mp hnd).2
      simp [List.lookup, hb, ih hnd' h1]

theorem foldl_intersectStep_eq_filter (rest : List CMap) (c : CMap) :
    rest.foldl intersectStep c =
      c.filter (fun p => rest.all (fun ci => coverCheck ci p.1 p.2)) := by
  induction rest generalizing c with
  | nil => simp
  | cons ci rest ih =>
    simp only [List.foldl_cons, ih, intersectStep, List.filter_filter,
      List.all_cons]
    congr 1
    funext p
    rw [Bool.and_comm]

theorem orFilterCoversGo_eq (covers : CMap) (rest : List CMap) (c : CMap) :
    orFilterCoversGo covers rest c = (rest.foldl intersectStep c) ++ covers := by
  induction rest generalizing c with
  | nil => simp [orFilterCoversGo]
  | cons ci rest ih =>
    by_cases h : ci.isEmpty
    · have hci : ci = [] := by simpa [List.isEmpty_iff] using h
      subst hci
      have hstep : intersectStep c [] = [] := by
        simp [intersectStep, coverCheck, List.lookup]
      have hall : List.foldl intersectStep ([] : CMap) rest = [] := by
        clear ih
        induction rest with
        | nil => rfl
        | cons x xs ihx => simpa [intersectStep] using ihx
      simp [orFilterCoversGo, h, hstep, hall]
    · simp [orFilterCoversGo, h, ih]

theorem orFilterCovers_eq_inter_append (c0 : CMap) (rest : List CMap) (covers : CMap) :
    orFilterCovers (c0 :: rest) covers = (rest.foldl intersectStep c0) ++ covers := by
  by_cases h : c0.isEmpty
  · have hc0 : c0 = [] := by simpa [List.isEmpty_iff] using h
    subst hc0
    have hall : List.foldl intersectStep ([] : CMap) rest = [] := by
      induction rest with
      | nil => rfl
      | cons x xs ihx => simpa [intersectStep] using ihx
    simp [orFilterCovers, hall]
  · simp [orFilterCovers, h, orFilterCoversGo_eq]

/-- C2: `Or.FilterCovers` adds to the supplied map exactly the intersection
of the operands' implicit covers under semantic equality — a binding is in
the result (beyond `covers`) iff every operand, the first included, produces
a binding for the same text whose Value compares Equals-true to it. -/
theorem orFilterCovers_intersection (c0 c1 : CMap) (rest : List CMap) (covers : CMap)
    (h0 : keysNodup c0) (s : String) (v : Value) :
    (orFilterCovers (c0 :: c1 :: rest) covers).lookup s = some v ↔
      (agreesAt (c0 :: c1 :: rest) s v ∨
        ((∀ w, ¬ agreesAt (c0 :: c1 :: rest) s w) ∧ covers.lookup s = some v)) := by
  have hinter :
      (c1 :: rest).foldl intersectStep c0 =
        c0.filter (fun p => (c1 :: rest).all (fun ci => coverCheck ci p.1 p.2)) :=
    foldl_intersectStep_eq_filter _ _
  set inter := (c1 :: rest).foldl intersectStep c0 with hinterdef
  have hnd : keysNodup inter := by
    rw [hinter]
    exact List.Nodup.sublist (List.Sublist.map _ (List.filter_sublist _)) h0
  -- membership in the intersection coincides with the agreement condition
  have hmem : ∀ w, (s, w) ∈ inter ↔ agreesAt (c0 :: c1 :: rest) s w := by
    intro w
    rw [hinter]
    constructor
    · intro hw
      have hw' := List.mem_filter.mp hw
      have hmem0 : (s, w) ∈ c0 := hw'.1
      have hall := List.all_eq_true.mp hw'.2
      intro c hc
      rcases List.mem_cons.mp hc with rfl | hc'
      · -- the first operand: its own binding, Equals-true by the later checks
        refine ⟨w, lookup_eq_some_of_mem h0 hmem0, ?_⟩
        have hchk := hall c1 (by simp)
        simp only [coverCheck] at hchk
        rcases hlk : c1.lookup s with _ | v1
        · rw [hlk] at hchk; simp at hchk
        · rw [hlk] at hchk
          have := (equals_truth_iff w v1).mp hchk
          exact (equals_truth_iff w w).mpr ⟨rfl, this.2.1, this.2.2⟩
      · have hchk := hall c hc'
        simp only [coverCheck] at hchk
        rcases hlk : c.lookup s with _ | vi
        · rw [hlk] at hchk; simp at hchk
        · rw [hlk] at hchk; exact ⟨vi, rfl, hchk⟩
    · intro hag
      rcases hag c0 (by simp) with ⟨v0, hlk0, heq0⟩
      have hv0 : w = v0 := ((equals_truth_iff w v0).mp heq0).1
      subst hv0
      refine List.mem_filter.mpr ⟨mem_of_lookup_eq_some hlk0, ?_⟩
      refine List.all_eq_true.mpr ?_
      intro ci hci
      rcases hag ci (List.mem_cons_of_mem _ hci) with ⟨vi, hlki, heqi⟩
      simp [coverCheck, hlki, heqi]
  rw [orFilterCovers_eq_inter_append, ← hinterdef, lookup_append]
  rcases hlk : inter.lookup s with _ | w
  · simp only [Option.or]
    constructor
    · intro hcov
      refine Or.inr ⟨?_, hcov⟩
      intro w hw
      have := lookup_eq_some_of_mem hnd ((hmem w).mpr hw)
      rw [hlk] at this
      exact Option.noConfusion this
    · rintro (hag | ⟨_, hcov⟩)
      · have := lookup_eq_some_of_mem hnd ((hmem v).mpr hag)
        rw [hlk] at this
        exact Option.noConfusion this
      · exact hcov
  · have hagw : agreesAt (c0 :: c1 :: rest) s w := (hmem w).mp (mem_of_lookup_eq_some hlk)
    simp only [Option.or]
    constructor
    · intro hv
      cases hv
      exact Or.inl hagw
    · rintro (hag | ⟨hno, _⟩)
      · -- agreement pins the value down to the first operand's binding
        rcases hag c0 (by simp) with ⟨v0, hlk0, heq0⟩
        rcases hagw c0 (by simp) with ⟨v0', hlk0', heq0'⟩
        rw [hlk0] at hlk0'
        cases hlk0'
        have h1 := ((equals_truth_iff v v0).mp heq0).1
        have h2 := ((equals_truth_iff w v0).mp heq0').1
        rw [h1, ← h2]
      · exact absurd hagw (hno w)

/-- Witness for C2: `FilterCovers(OR(x=1, x=1))` contains `x→1`, while
`FilterCovers(OR(x=1, x=2))` contains no binding for `x`. -/
theorem orFilterCovers_intersection_witness :
    (orFilterCovers [[("x", Value.num 1)], [("x", Value.num 1)]] []).lookup "x"
        = some (Value.num 1) ∧
      (orFilterCovers [[("x", Value.num 1)], [("x", Value.num 2)]] []).lookup "x"
        = none := by
  constructor
  · refine (orFilterCovers_intersection [("x", Value.num 1)] [("x", Value.num 1)]
      [] [] (by decide) "x" (Value.num 1)).mpr (Or.inl ?_)
    intro c hc
    rcases List.mem_cons.mp hc with rfl | hc'
    · exact ⟨Value.num 1, rfl, by decide⟩
    · rcases List.mem_cons.mp hc' with rfl | hc''
      · exact ⟨Value.num 1, rfl, by decide⟩
      · simp at hc''
  · rfl

/-! ## C3/C4: `ExpressionBase.Value` and `ExpressionBase.EquivalentTo` (expression/base.go)

An expression node carries a kind (standing for its Go dynamic type), the
`volatile` and `conditional` flags, and ordered children.  The node-specific
`Evaluate` bodies live outside base.go, so evaluation is parametrized by an
interpretation `Interp` mapping a kind, the item (`none` models a nil item),
and the children's results to the node's result; `none` as a result models
an evaluation error or panic. -/

mutual
inductive Expr where
  | mk (kind : Nat) (volatile : Bool) (conditional : Bool) (children : ExprList)
inductive ExprList where
  | nil
  | cons (head : Expr) (tail : ExprList)
end

def Expr.kind : Expr → Nat
  | .mk k _ _ _ => k

def Expr.volatile : Expr → Bool
  | .mk _ v _ _ => v

def Expr.conditional : Expr → Bool
  | .mk _ _ c _ => c

def Expr.children : Expr → ExprList
  | .mk _ _ _ cs => cs

structure Interp where
  apply : Nat → Option Value → List (Option Value) → Option Value

mutual
/-- `Evaluate(item, context)`: dispatch the node kind on the children's
results. -/
def Expr.eval (I : Interp) (item : Option Value) : Expr → Option Value
  | .mk k _ _ cs => I.apply k item (ExprList.evalList I item cs)
def ExprList.evalList (I : Interp) (item : Option Value) : ExprList → List (Option Value)
  | .nil => []
  | .cons e es => Expr.eval I item e :: ExprList.evalList I item es
end

mutual
/-- `ExpressionBase.PropagatesMissing`: false if conditional or any child
does not propagate. -/
def Expr.propagatesMissing : Expr → Bool
  | .mk _ _ cond cs => !cond && ExprList.pmList cs
def ExprList.pmList : ExprList → Bool
  | .nil => true
  | .cons e es => e.propagatesMissing && ExprList.pmList es
end

mutual
/-- `ExpressionBase.PropagatesNull`. -/
def Expr.propagatesNull : Expr → Bool
  | .mk _ _ cond cs => !cond && ExprList.pnList cs
def ExprList.pnList : ExprList → Bool
  | .nil => true
  | .cons e es => e.propagatesNull && ExprList.pnList es
end

/-- The child loop of `ExpressionBase.Value`.  The state is the `this.value`
pointer: `none` = unset, `some none` = the "no value" sentinel, `some (some x)`
= set to constant `x`.  `.inl r` models the early `return *this.value` on a
constant-MISSING child under missing propagation. -/
def valueScan (pm pn : Bool) :
    List (Option Value) → Option (Option Value) → (Option Value) ⊕ (Option (Option Value))
  | [], st => .inr st
  | cv :: rest, st =>
      match cv with
      | none => valueScan pm pn rest (if st.isNone then some none else st)
      | some x =>
          if pm && x.isMissing then .inl (some x)
          else if pn && x.isNull then valueScan pm pn rest (some (some x))
          else valueScan pm pn rest st

mutual
/-- `ExpressionBase.Value()` (base.go:95-147): `none` models a nil result.
The cache is write-once and observably equal to recomputation, so it is
modelled by recomputation; both evaluation errors and panics land in the
recover/sentinel path and yield `none`. -/
def Expr.exprValue (I : Interp) : Expr → Option Value
  | .mk k vol cond cs =>
      if vol then none
      else
        match valueScan (Expr.propagatesMissing (.mk k vol cond cs))
            (Expr.propagatesNull (.mk k vol cond cs))
            (ExprList.valueList I cs) none with
        | .inl r => r
        | .inr (some st) => st
        | .inr none => Expr.eval I none (.mk k vol cond cs)
def ExprList.valueList (I : Interp) : ExprList → List (Option Value)
  | .nil => []
  | .cons e es => Expr.exprValue I e :: ExprList.valueList I es
end

def Expr.childValues (I : Interp) (e : Expr) : List (Option Value) :=
  ExprList.valueList I e.children

/-- The amended contract of `Value()`, stated the way the spec should read:
nil when volatile; the constant MISSING of a child when the node propagates
missing and some child folds to constant MISSING (even with other children
non-constant); likewise NULL; nil when any child is non-constant; otherwise
the node is folded by evaluating at a nil item, failures yielding nil. -/
def specValue (I : Interp) (e : Expr) : Option Value :=
  if e.volatile then none
  else if e.propagatesMissing && (e.childValues I).contains (some .missing) then
    some .missing
  else if e.propagatesNull && (e.childValues I).contains (some .null) then
    some .null
  else if (e.childValues I).contains none then none
  else e.eval I none

theorem valueScan_spec (pm pn : Bool) (l : List (Option Value)) (st : Option (Option Value)) :
    valueScan pm pn l st =
      if pm && l.contains (some .missing) then .inl (some .missing)
      else if pn && l.contains (some .null) then .inr (some (some .null))
      else
        match st with
        | some w => .inr (some w)
        | none => if l.contains none then .inr (some none) else .inr none := by
  induction l generalizing st with
  | nil =>
      cases st <;> simp [valueScan]
  | cons cv rest ih =>
      rcases cv with _ | x
      · cases st <;> cases pm <;> cases pn <;>
          simp [valueScan, ih, List.contains_cons]
      · cases st <;> cases x <;> cases pm <;> cases pn <;>
          simp [valueScan, ih, Value.isMissing, Value.isNull, List.contains_cons]

theorem exprValue_characterization (I : Interp) (e : Expr) :
    Expr.exprValue I e = specValue I e := by
  cases e with
  | mk k vol cond cs =>
      unfold Expr.exprValue specValue
      simp only [Expr.volatile, Expr.childValues, Expr.children]
      cases vol with
      | true => simp
      | false =>
          simp only [Bool.false_eq_true, if_false]
          rw [valueScan_spec]
          cases h1 : (Expr.propagatesMissing (Expr.mk k false cond cs)
              && (ExprList.valueList I cs).contains (some Value.missing)) with
          | true => simp
          | false =>
              simp only [Bool.false_eq_true, if_false]
              cases h2 : (Expr.propagatesNull (Expr.mk k false cond cs)
                  && (ExprList.valueList I cs).contains (some Value.null)) with
              | true => simp
              | false =>
                  simp only [Bool.false_eq_true, if_false]
                  by_cases h3 : (ExprList.valueList I cs).contains none = true
                  · rw [if_pos h3, if_pos h3]
                  · rw [if_neg h3, if_neg h3]

/-- C3 (amended): `Value()` equals the spec-side description `specValue`: a
cached constant when the subtree is non-volatile and all children are
constant (folded by evaluating at nil, failures giving the nil sentinel),
but also the constant MISSING/NULL of a child under missing/null
propagation even when another child is non-constant; nil in all other
cases.  In particular, constants folded by evaluation satisfy
`Evaluate(nil) = Value()` by the last branch of `specValue`. -/
theorem exprValue_eq_specValue (I : Interp) (e : Expr) :
    Expr.exprValue I e = specValue I e :=
  exprValue_characterization I e

/-- A concrete interpretation for the counterexamples: kind 0 is an
identifier (fails at a nil item, MISSING on an item lacking the field),
kind 1 a MISSING constant, kind 2 a NULL constant, kind 3 an arithmetic
node propagating errors, then MISSING, then NULL. -/
def cexInterp : Interp where
  apply k item args :=
    match k with
    | 0 => match item with
           | none => none
           | some _ => some .missing
    | 1 => some .missing
    | 2 => some .null
    | 3 =>
        if args.any (·.isNone) then none
        else if args.contains (some .missing) then some .missing
        else if args.contains (some .null) then some .null
        else some (.num 0)
    | _ => none

def cexIdent : Expr := .mk 0 false false .nil

def cexMissingConst : Expr := .mk 1 false false .nil

def cexNullConst : Expr := .mk 2 false false .nil

def cexAddMissing : Expr := .mk 3 false false (.cons cexIdent (.cons cexMissingConst .nil))

def cexAddNull : Expr := .mk 3 false false (.cons cexIdent (.cons cexNullConst .nil))

/-- Counterexample to C3 as stated: a non-volatile node with a non-constant
child (`Value() = nil`) still returns a non-nil cached constant, because the
missing-propagation shortcut fires on the other child. -/
theorem exprValue_nonconstant_child_cex :
    Expr.exprValue cexInterp cexIdent = none ∧
      Expr.volatile cexAddMissing = false ∧
      cexIdent ∈ [cexIdent, cexMissingConst] ∧
      Expr.childValues cexInterp cexAddMissing =
        [Expr.exprValue cexInterp cexIdent, Expr.exprValue cexInterp cexMissingConst] ∧
      Expr.exprValue cexInterp cexAddMissing = some .missing := by
  refine ⟨rfl, rfl, by simp, rfl, rfl⟩

/-- `ExpressionBase.valueEquivalentTo` (base.go:321-327): both constant and
the constant Values equivalent; Value-level `EquivalentTo` is structural
equality (NULL ≡ NULL, MISSING ≡ MISSING). -/
def valueEquivalentTo (I : Interp) (e e' : Expr) : Bool :=
  match Expr.exprValue I e, Expr.exprValue I e' with
  | some v, some v' => v == v'
  | _, _ => false

mutual
/-- `ExpressionBase.EquivalentTo` (base.go:221-244): the value branch, else
same dynamic type (kind), same child count, pairwise equivalent children. -/
def Expr.equivalentTo (I : Interp) : Expr → Expr → Bool
  | .mk k v c cs, .mk k' v' c' cs' =>
      valueEquivalentTo I (.mk k v c cs) (.mk k' v' c' cs') ||
        (k == k' && ExprList.eqvList I cs cs')
def ExprList.eqvList (I : Interp) : ExprList → ExprList → Bool
  | .nil, .nil => true
  | .cons e es, .cons f fs => Expr.equivalentTo I e f && ExprList.eqvList I es fs
  | .nil, .cons _ _ => false
  | .cons _ _, .nil => false
end

mutual
theorem equivalentTo_refl (I : Interp) : ∀ e : Expr, Expr.equivalentTo I e e = true
  | .mk k v c cs => by
      simp [Expr.equivalentTo, eqvList_refl I cs]
theorem eqvList_refl (I : Interp) : ∀ cs : ExprList, ExprList.eqvList I cs cs = true
  | .nil => rfl
  | .cons e es => by
      simp [ExprList.eqvList, equivalentTo_refl I e, eqvList_refl I es]
end

theorem valueEquivalentTo_symm (I : Interp) (e e' : Expr) :
    valueEquivalentTo I e e' = valueEquivalentTo I e' e := by
  unfold valueEquivalentTo
  cases Expr.exprValue I e <;> cases Expr.exprValue I e' <;> simp
  exact ⟨fun h => h.symm, fun h => h.symm⟩

mutual
theorem equivalentTo_symm (I : Interp) :
    ∀ e e' : Expr, Expr.equivalentTo I e e' = Expr.equivalentTo I e' e
  | .mk k v c cs, .mk k' v' c' cs' => by
      have h1 := valueEquivalentTo_symm I (.mk k v c cs) (.mk k' v' c' cs')
      have h2 := eqvList_symm I cs cs'
      have h3 : (k == k') = (k' == k) := by
        by_cases h : k = k'
        · subst h; rfl
        · have ha : (k == k') = false := beq_eq_false_iff_ne.mpr h
          have hb : (k' == k) = false := beq_eq_false_iff_ne.mpr (Ne.symm h)
          rw [ha, hb]
      simp only [Expr.equivalentTo, h1, h2, h3]
theorem eqvList_symm (I : Interp) :
    ∀ cs cs' : ExprList, ExprList.eqvList I cs cs' = ExprList.eqvList I cs' cs
  | .nil, .nil => rfl
  | .nil, .cons _ _ => rfl
  | .cons _ _, .nil => rfl
  | .cons e es, .cons f fs => by
      simp only [ExprList.eqvList, equivalentTo_symm I e f, eqvList_symm I es fs]
end

mutual
theorem equivalentTo_sound (I : Interp)
    (hf : ∀ (e : Expr) (v : Value), Expr.exprValue I e = some v →
        ∀ item, Expr.eval I item e = some v) :
    ∀ (e e' : Expr) (item : Option Value), Expr.equivalentTo I e e' = true →
      Expr.eval I item e = Expr.eval I item e'
  | .mk k v c cs, .mk k' v' c' cs', item, h => by
      rw [Expr.equivalentTo, Bool.or_eq_true] at h
      rcases h with hval | hstruct
      · unfold valueEquivalentTo at hval
        rcases hv1 : Expr.exprValue I (.mk k v c cs) with _ | w1 <;>
          rcases hv2 : Expr.exprValue I (.mk k' v' c' cs') with _ | w2 <;>
            rw [hv1, hv2] at hval
        · simp at hval
        · simp at hval
        · simp at hval
        · have hw : w1 = w2 := by simpa using hval
          rw [hf _ _ hv1 item, hf _ _ hv2 item, hw]
      · rw [Bool.and_eq_true] at hstruct
        have hk : k = k' := by simpa using hstruct.1
        have hcs := eqvList_sound I hf cs cs' item hstruct.2
        simp [Expr.eval, hk, hcs]
theorem eqvList_sound (I : Interp)
    (hf : ∀ (e : Expr) (v : Value), Expr.exprValue I e = some v →
        ∀ item, Expr.eval I item e = some v) :
    ∀ (cs cs' : ExprList) (item : Option Value), ExprList.eqvList I cs cs' = true →
      ExprList.evalList I item cs = ExprList.evalList I item cs'
  | .nil, .nil, _, _ => rfl
  | .nil, .cons _ _, _, h => by simp [ExprList.eqvList] at h
  | .cons _ _, .nil, _, h => by simp [ExprList.eqvList] at h
  | .cons e es, .cons f fs, item, h => by
      rw [ExprList.eqvList, Bool.and_eq_true] at h
      simp [ExprList.evalList, equivalentTo_sound I hf e f item h.1,
        eqvList_sound I hf es fs item h.2]
end

/-- C4 (amended): `EquivalentTo` is reflexive and symmetric, and it has no
false positives — equivalent expressions evaluate identically on every item
— provided the constant folds are faithful: whenever `Value()` is non-nil it
agrees with `Evaluate` on every item.  (The unrestricted claim fails; see
the counterexample.) -/
theorem equivalentTo_refl_symm_sound :
    (∀ (I : Interp) (e : Expr), Expr.equivalentTo I e e = true) ∧
      (∀ (I : Interp) (e e' : Expr),
        Expr.equivalentTo I e e' = Expr.equivalentTo I e' e) ∧
      (∀ I : Interp,
        (∀ (e : Expr) (v : Value), Expr.exprValue I e = some v →
            ∀ item, Expr.eval I item e = some v) →
        ∀ (e e' : Expr) (item : Option Value), Expr.equivalentTo I e e' = true →
          Expr.eval I item e = Expr.eval I item e') :=
  ⟨equivalentTo_refl, equivalentTo_symm, equivalentTo_sound⟩

/-- Counterexample to C4 as stated: `x + NULL` folds to constant NULL via
the null-propagation shortcut, so `EquivalentTo` pairs it with the NULL
constant, yet on an item where `x` is missing the two evaluate to MISSING
and NULL respectively — a false positive. -/
theorem equivalentTo_false_positive_cex :
    Expr.equivalentTo cexInterp cexAddNull cexNullConst = true ∧
      Expr.eval cexInterp (some (Value.num 0)) cexAddNull = some .missing ∧
      Expr.eval cexInterp (some (Value.num 0)) cexNullConst = some .null ∧
      Expr.eval cexInterp (some (Value.num 0)) cexAddNull ≠
        Expr.eval cexInterp (some (Value.num 0)) cexNullConst := by
  refine ⟨rfl, rfl, rfl, by decide⟩

/-- The trivial interpretation used to certify the soundness hypothesis of
the amended C4 theorem is satisfiable. -/
def trivInterp : Interp where
  apply _ _ _ := some .null

mutual
theorem trivInterp_exprValue :
    ∀ e : Expr, Expr.exprValue trivInterp e = none ∨
      Expr.exprValue trivInterp e = some .null
  | .mk k v c cs => by
      have hl := trivInterp_valueList cs
      rw [exprValue_characterization]
      unfold specValue
      simp only [Expr.volatile, Expr.childValues, Expr.children, Expr.conditional]
      split_ifs with h1 h2 h3 h4
      · exact Or.inl rfl
      · exfalso
        rw [Bool.and_eq_true] at h2
        have hm : (some Value.missing) ∈ ExprList.valueList trivInterp cs := by
          simpa using h2.2
        rcases hl _ hm with hc | hc <;> simp at hc
      · exact Or.inr rfl
      · exact Or.inl rfl
      · exact Or.inr rfl
theorem trivInterp_valueList :
    ∀ cs : ExprList, ∀ x ∈ ExprList.valueList trivInterp cs,
      x = none ∨ x = some .null
  | .nil => by intro x hx; simp [ExprList.valueList] at hx
  | .cons e es => by
      intro x hx
      rcases List.mem_cons.mp hx with rfl | hx'
      · exact trivInterp_exprValue e
      · exact trivInterp_valueList es x hx'
end

theorem trivInterp_faithful :
    ∀ (e : Expr) (v : Value), Expr.exprValue trivInterp e = some v →
      ∀ item, Expr.eval trivInterp item e = some v := by
  intro e v hv item
  rcases trivInterp_exprValue e with h | h <;> rw [hv] at h
  · exact absurd h (by simp)
  · cases e with
    | mk k vl c cs =>
        have hvn : v = .null := by simpa using h
        subst hvn
        rfl

/-- Witness for C4: the soundness hypothesis is satisfiable and the theorem
applies at concrete expressions. -/
theorem equivalentTo_refl_symm_sound_witness :
    Expr.equivalentTo trivInterp cexIdent cexIdent = true ∧
      Expr.equivalentTo trivInterp cexIdent cexMissingConst =
        Expr.equivalentTo trivInterp cexMissingConst cexIdent ∧
      Expr.eval trivInterp (some (Value.num 3)) cexIdent =
        Expr.eval trivInterp (some (Value.num 3)) cexMissingConst :=
  ⟨equivalentTo_refl_symm_sound.1 trivInterp cexIdent,
    equivalentTo_refl_symm_sound.2.1 trivInterp cexIdent cexMissingConst,
    equivalentTo_refl_symm_sound.2.2 trivInterp trivInterp_faithful
      cexIdent cexMissingConst (some (Value.num 3)) (by decide)⟩

/-! ## C8: `builder.VisitSubselect` (plan/builder.go:91-144)

The builder keeps two operator lists: `children` (the sequential stages)
and `subChildren` (the per-item pipeline that gets wrapped in
`Parallel(Sequence(...))`).  The operator DAG is embedded with a dedicated
list type so that containment checks stay structurally recursive. -/

mutual
inductive PlanOp where
  | dummyScan
  | primaryScan
  | fetch
  | letOp
  | filter
  | initialGroup
  | intermediateGroup
  | finalGroup
  | initialProject
  | finalProject
  | distinct
  | parallel (child : PlanOp)
  | sequence (children : PlanOpList)
inductive PlanOpList where
  | nil
  | cons (head : PlanOp) (tail : PlanOpList)
end

def PlanOpList.ofList : List PlanOp → PlanOpList
  | [] => .nil
  | p :: ps => .cons p (PlanOpList.ofList ps)

mutual
/-- Does the operator DAG contain a `Distinct` node? -/
def PlanOp.hasDistinct : PlanOp → Bool
  | .distinct => true
  | .parallel c => c.hasDistinct
  | .sequence cs => cs.hasDistinct
  | _ => false
def PlanOpList.hasDistinct : PlanOpList → Bool
  | .nil => false
  | .cons p ps => p.hasDistinct || ps.hasDistinct
end

mutual
/-- Does the operator DAG contain a `FinalProject` node? -/
def PlanOp.hasFinalProject : PlanOp → Bool
  | .finalProject => true
  | .parallel c => c.hasFinalProject
  | .sequence cs => cs.hasFinalProject
  | _ => false
def PlanOpList.hasFinalProject : PlanOpList → Bool
  | .nil => false
  | .cons p ps => p.hasFinalProject || ps.hasFinalProject
end

/-- The shape of a SUBSELECT as `VisitSubselect` inspects it: presence of a
FROM term, LET and WHERE clauses, explicit GROUP BY (with optional LETTING
and HAVING), aggregates in the projection, and the DISTINCT flag. -/
structure SubselectM where
  hasFrom : Bool
  hasLet : Bool
  hasWhere : Bool
  hasGroup : Bool
  groupLetting : Bool
  groupHaving : Bool
  hasAggs : Bool
  distinct : Bool

/-- `builder.visitGroup` (plan/builder.go:146-171): returns the updated
`(children, subChildren)` pair. -/
def visitGroup (s : SubselectM) (children subChildren : List PlanOp) :
    List PlanOp × List PlanOp :=
  let subChildren1 := subChildren ++ [PlanOp.initialGroup, PlanOp.intermediateGroup]
  let children1 := children ++ [PlanOp.parallel (.sequence (.ofList subChildren1))]
  let children2 := children1 ++ [PlanOp.intermediateGroup, PlanOp.finalGroup]
  let subChildren2 : List PlanOp :=
    (if s.groupLetting then [PlanOp.letOp] else []) ++
      (if s.groupHaving then [PlanOp.filter] else [])
  (children2, subChildren2)

/-- `builder.VisitSubselect` (plan/builder.go:91-144).  Note the source
appends the final `Distinct` to `this.subChildren` *after* `subChildren`
has already been wrapped into `Parallel(Sequence(...))` and added to
`children`; the append is therefore dead and the emitted plan is
`Sequence(children)` without it.  The dead binding is kept to mirror the
source. -/
def visitSubselect (s : SubselectM) : PlanOp :=
  let children : List PlanOp :=
    if s.hasFrom then [PlanOp.primaryScan] else [PlanOp.dummyScan]
  let subChildren : List PlanOp := if s.hasFrom then [PlanOp.fetch] else []
  let subChildren := subChildren ++ (if s.hasLet then [PlanOp.letOp] else [])
  let subChildren := subChildren ++ (if s.hasWhere then [PlanOp.filter] else [])
  let doGroup := s.hasGroup || s.hasAggs
  let (children, subChildren) :=
    if doGroup then visitGroup s children subChildren else (children, subChildren)
  let subChildren := subChildren ++ [PlanOp.initialProject]
  let subChildren :=
    if s.distinct then subChildren ++ [PlanOp.finalProject] else subChildren
  let children := children ++ [PlanOp.parallel (.sequence (.ofList subChildren))]
  let _deadSubChildren :=
    if s.distinct then subChildren ++ [PlanOp.distinct] else subChildren
  PlanOp.sequence (.ofList children)

/-- C8 evaluated at its failing input: for a DISTINCT subselect the plan
holds a `FinalProject` inside the parallelized sub-pipeline, but the final
`Distinct` the claim requires after the `Parallel` wrapper is absent — the
source appends it to the already-consumed `subChildren` slice. -/
theorem visitSubselect_distinct_dropped :
    PlanOp.hasFinalProject
        (visitSubselect ⟨true, false, true, false, false, false, false, true⟩) = true ∧
      PlanOp.hasDistinct
        (visitSubselect ⟨true, false, true, false, false, false, false, true⟩) = false ∧
      ∀ s : SubselectM, PlanOp.hasDistinct (visitSubselect s) = false := by
  refine ⟨rfl, rfl, ?_⟩
  rintro ⟨hf, hl, hw, hg, hgl, hgh, ha, hd⟩
  cases hf <;> cases hl <;> cases hw <;> cases hg <;> cases hgl <;>
    cases hgh <;> cases ha <;> cases hd <;> rfl

/-! ## C9/C10: `DistinctScan.processKey` (execution/scan_index2.go:558-588)

`processKey` reads the "meta" attachment, asserts it to a string-keyed map,
asserts its "id" entry to a string, and then either drops an already-seen
key, stops at the limit, or records the key and forwards the item. -/

/-- A Go `interface{}` as far as `processKey` inspects it: `null` models a
nil interface (also a missing attachment or map entry), `strMap` a
`map[string]interface{}`, `other` any value failing both type assertions. -/
inductive GoVal where
  | null
  | str (s : String)
  | strMap (entries : List (String × GoVal))
  | other

/-- Outcome of one `processKey` call: the returned bool, the updated key
set, the forwarded key if any, and whether `context.Error` was called. -/
structure StepOut where
  cont : Bool
  keys : List String
  emitted : Option String
  errored : Bool
deriving DecidableEq

/-- The key extraction implicit in processKey's two type assertions. -/
def metaId (meta : GoVal) : Option String :=
  match meta with
  | .strMap m =>
      match m.lookup "id" with
      | some (.str key) => some key
      | _ => none
  | _ => none

/-- `DistinctScan.processKey(item, context, limit)`; the key set is the
pooled `this.keys` (insertion modelled by consing), and `sendItem` is taken
to succeed. -/
def processKey (keys : List String) (meta : GoVal) (limit : Int) : StepOut :=
  match meta with
  | .strMap m =>
      match m.lookup "id" with
      | some (.str key) =>
          if keys.contains key then ⟨true, keys, none, false⟩
          else if 0 < limit ∧ limit ≤ (keys.length : Int) then ⟨false, keys, none, false⟩
          else ⟨true, key :: keys, some key, false⟩
      | _ => ⟨false, keys, none, true⟩
  | _ => ⟨false, keys, none, true⟩

/-- Driving `processKey` over a stream of items, collecting forwarded keys;
a `false` return terminates the scan. -/
def runDistinct (limit : Int) : List GoVal → List String → List String
  | [], _ => []
  | m :: rest, keys =>
      let o := processKey keys m limit
      match o.emitted with
      | some k => if o.cont then k :: runDistinct limit rest o.keys else [k]
      | none => if o.cont then runDistinct limit rest o.keys else []

theorem processKey_of_metaId_none (meta : GoVal) (h : metaId meta = none)
    (keys : List String) (limit : Int) :
    processKey keys meta limit = ⟨false, keys, none, true⟩ := by
  rcases meta with _ | s | entries | _ <;> try rfl
  rcases hl : entries.lookup "id" with _ | gv
  · simp [processKey, hl]
  · rcases gv with _ | k' | m' | _ <;> simp [metaId, hl] at h <;> simp [processKey, hl]

theorem processKey_of_metaId_some (meta : GoVal) (key : String)
    (h : metaId meta = some key) (keys : List String) (limit : Int) :
    processKey keys meta limit =
      if keys.contains key then ⟨true, keys, none, false⟩
      else if 0 < limit ∧ limit ≤ (keys.length : Int) then ⟨false, keys, none, false⟩
      else ⟨true, key :: keys, some key, false⟩ := by
  rcases meta with _ | s | entries | _ <;> simp [metaId] at h
  rcases hl : entries.lookup "id" with _ | gv <;> rw [hl] at h
  · simp at h
  · rcases gv with _ | k' | m' | _ <;> simp at h
    subst h
    simp [processKey, hl]

/-- One case analysis of a `runDistinct` step, phrased through `metaId`. -/
theorem runDistinct_cons (limit : Int) (m : GoVal) (rest : List GoVal)
    (keys : List String) :
    runDistinct limit (m :: rest) keys =
      match metaId m with
      | none => []
      | some key =>
          if key ∈ keys then runDistinct limit rest keys
          else if 0 < limit ∧ limit ≤ (keys.length : Int) then []
          else key :: runDistinct limit rest (key :: keys) := by
  rcases hid : metaId m with _ | key
  · have hpk := processKey_of_metaId_none m hid keys limit
    simp [runDistinct, hpk]
  · have hpk := processKey_of_metaId_some m key hid keys limit
    by_cases hc : key ∈ keys
    · rw [if_pos (by simpa using hc : keys.contains key = true)] at hpk
      simp [runDistinct, hpk, hc]
    · rw [if_neg (by simpa using hc : ¬ keys.contains key = true)] at hpk
      by_cases hlim : 0 < limit ∧ limit ≤ (keys.length : Int)
      · rw [if_pos hlim] at hpk
        simp [runDistinct, hpk, hc, hlim]
      · rw [if_neg hlim] at hpk
        simp [runDistinct, hpk, hc, hlim]

theorem runDistinct_fresh (limit : Int) :
    ∀ (items : List GoVal) (keys : List String),
      (∀ k ∈ runDistinct limit items keys, ¬ k ∈ keys) ∧
        (runDistinct limit items keys).Nodup := by
  intro items
  induction items with
  | nil => intro keys; simp [runDistinct]
  | cons m rest ih =>
      intro keys
      rw [runDistinct_cons]
      rcases hid : metaId m with _ | key
      · simp
      · dsimp only
        by_cases hc : key ∈ keys
        · rw [if_pos hc]
          exact ih keys
        · rw [if_neg hc]
          by_cases hlim : 0 < limit ∧ limit ≤ (keys.length : Int)
          · rw [if_pos hlim]
            simp
          · rw [if_neg hlim]
            have hrec := ih (key :: keys)
            constructor
            · intro k hk
              rcases List.mem_cons.mp hk with rfl | hk'
              · exact hc
              · intro hmem
                exact hrec.1 k hk' (List.mem_cons_of_mem _ hmem)
            · refine List.nodup_cons.mpr ⟨?_, hrec.2⟩
              intro hmem
              exact hrec.1 _ hmem (List.mem_cons_self _ _)

theorem runDistinct_limit_bound (limit : Int) (hpos : 0 < limit) :
    ∀ (items : List GoVal) (keys : List String),
      (runDistinct limit items keys).length ≤ (limit - keys.length).toNat := by
  intro items
  induction items with
  | nil => intro keys; simp [runDistinct]
  | cons m rest ih =>
      intro keys
      rw [runDistinct_cons]
      rcases hid : metaId m with _ | key
      · simp
      · dsimp only
        by_cases hc : key ∈ keys
        · rw [if_pos hc]
          exact ih keys
        · rw [if_neg hc]
          by_cases hlim : 0 < limit ∧ limit ≤ (keys.length : Int)
          · rw [if_pos hlim]
            simp
          · rw [if_neg hlim]
            have hlt : (keys.length : Int) < limit := by
              rcases not_and_or.mp hlim with h | h
              · exact absurd hpos h
              · omega
            have hrec := ih (key :: keys)
            simp only [List.length_cons] at hrec ⊢
            omega

/-- C9: DistinctScan emits each primary key at most once — an item whose key
is already recorded is consumed without being forwarded, the forwarded keys
over any input sequence are pairwise distinct, and with a positive limit the
number of forwarded keys never exceeds the limit. -/
theorem distinctScan_at_most_once :
    (∀ (keys : List String) (meta : GoVal) (limit : Int) (key : String),
        metaId meta = some key → keys.contains key = true →
        processKey keys meta limit = ⟨true, keys, none, false⟩) ∧
      (∀ (limit : Int) (items : List GoVal), (runDistinct limit items []).Nodup) ∧
      (∀ (limit : Int) (items : List GoVal), 0 < limit →
        ((runDistinct limit items []).length : Int) ≤ limit) := by
  refine ⟨?_, ?_, ?_⟩
  · intro keys meta limit key hid hc
    rcases meta with _ | s | entries | _ <;> simp [metaId] at hid
    rcases hl : entries.lookup "id" with _ | gv <;> rw [hl] at hid
    · simp at hid
    · rcases gv with _ | k' | m' | _ <;> simp at hid
      subst hid
      have hmem : k' ∈ keys := by simpa using hc
      simp [processKey, hl, hmem]
  · intro limit items
    exact (runDistinct_fresh limit items []).2
  · intro limit items hpos
    have := runDistinct_limit_bound limit hpos items []
    simp only [List.length_nil, Nat.cast_zero, sub_zero] at this
    omega

/-- Witness for C9 at concrete inputs. -/
theorem distinctScan_at_most_once_witness :
    processKey ["a"] (.strMap [("id", .str "a")]) 0 = ⟨true, ["a"], none, false⟩ ∧
      (runDistinct 1 [.strMap [("id", .str "a")], .strMap [("id", .str "b")]] []).Nodup ∧
      ((runDistinct 1 [.strMap [("id", .str "a")], .strMap [("id", .str "b")]] []).length : Int) ≤ 1 :=
  ⟨distinctScan_at_most_once.1 ["a"] (.strMap [("id", .str "a")]) 0 "a" rfl rfl,
    distinctScan_at_most_once.2.1 1 _,
    distinctScan_at_most_once.2.2 1 _ (by decide)⟩

/-- C10: an item whose "meta" attachment is absent or not a string-keyed
map, or whose "id" entry is absent or not a string, makes `processKey`
publish an invalid-value error and return false, terminating the scan
without forwarding the item. -/
theorem distinctScan_invalid_meta_errors (keys : List String) (limit : Int)
    (meta : GoVal) (h : metaId meta = none) :
    processKey keys meta limit = ⟨false, keys, none, true⟩ := by
  rcases meta with _ | s | entries | _ <;> try rfl
  rcases hl : entries.lookup "id" with _ | gv
  · simp [processKey, hl]
  · rcases gv with _ | k' | m' | _ <;> simp [metaId, hl] at h <;> simp [processKey, hl]

/-- Witness for C10: a meta map whose "id" entry is not a string. -/
theorem distinctScan_invalid_meta_errors_witness :
    processKey [] (.strMap [("id", .strMap [])]) 10 = ⟨false, [], none, true⟩ :=
  distinctScan_invalid_meta_errors [] 10 (.strMap [("id", .strMap [])]) rfl

/-! ## C5-C7: the expression classifier (planner, src/unnamed/part_002)

`ClassifyExpr` splits a predicate on AND boundaries and attributes each
conjunct to the base keyspaces it mentions.  Predicates are embedded as a
small language of boolean constants, keyspace-referencing atoms, AND, OR
and NOT; the pieces of the planner that are not in the sampled sources
(the DNF rewriter, `CountKeySpaces`, `flattenOr`, the base-keyspace
records) are modelled from the spec as marked. -/

inductive Pred where
  | tt
  | ff
  | atom (ks : List String) (id : Nat)
  | and (l r : Pred)
  | or (l r : Pred)
  | not (p : Pred)
deriving DecidableEq, Repr

/-- Modelled from the spec: `Expression.Value()` on predicates — only the
boolean constants fold to a constant; data-dependent atoms give nil. -/
def Pred.value : Pred → Option Value
  | .tt => some (.bool true)
  | .ff => some (.bool false)
  | _ => none

/-- `cpred := expr.Value(); cpred != nil && cpred.Truth()`. -/
def Pred.constTruth (p : Pred) : Bool :=
  match p.value with
  | some v => v.truth
  | none => false

/-- Modelled from the spec: the keyspace references of a predicate
(`expression.CountKeySpaces` collects the base keyspaces mentioned by free
identifiers). -/
def Pred.ksRefs : Pred → List String
  | .tt => []
  | .ff => []
  | .atom ks _ => ks
  | .and l r => l.ksRefs ++ r.ksRefs
  | .or l r => l.ksRefs ++ r.ksRefs
  | .not p => p.ksRefs

/-- The set `keyspaces(P)` restricted to the classifier's known names,
canonicalized as a duplicate-free list. -/
def keyspacesOf (names : List String) (p : Pred) : List String :=
  (p.ksRefs.filter (fun k => names.contains k)).dedup

/-- Modelled from the spec: the expression-level normalization applied by
`NewDNF(expr, true, false).Map` — constant folding of NOT and one De Morgan
push, with no disjunctive expansion. -/
def dnfMap : Pred → Pred
  | .not p =>
      match dnfMap p with
      | .or a b => .and (.not a) (.not b)
      | .and a b => .or (.not a) (.not b)
      | .not q => q
      | .tt => .ff
      | .ff => .tt
      | q => .not q
  | .and l r => .and (dnfMap l) (dnfMap r)
  | .or l r => .or (dnfMap l) (dnfMap r)
  | p => p

/-- Size measure giving `nsize (dnfMap p) ≤ nsize p`. -/
def Pred.nsize : Pred → Nat
  | .tt => 1
  | .ff => 1
  | .atom _ _ => 1
  | .and l r => l.nsize + r.nsize + 1
  | .or l r => l.nsize + r.nsize + 1
  | .not p => 2 * p.nsize + 1

/-- The AND-spine leaves: `VisitAnd` recurses into nested ANDs and sends
every other operand to `visitDefault`. -/
def Pred.conjuncts : Pred → List Pred
  | .and l r => l.conjuncts ++ r.conjuncts
  | p => [p]

/-- The OR-spine leaves (`flattenOr`, modelled from the spec). -/
def Pred.orLeaves : Pred → List Pred
  | .or l r => l.orLeaves ++ r.orLeaves
  | p => [p]

def Pred.isAnd : Pred → Bool
  | .and _ _ => true
  | _ => false

def Pred.isOr : Pred → Bool
  | .or _ _ => true
  | _ => false

/-- A classifier filter record `{fltrExpr, origExpr, keyspaces, isOnclause,
isJoin}` (base-keyspace records modelled from the spec). -/
structure Filter where
  fltrExpr : Pred
  origExpr : Option Pred
  keyspaces : List String
  onclause : Bool
  join : Bool
deriving DecidableEq, Repr

/-- A base keyspace: name (= alias), plan status, and the two filter lists. -/
structure BaseKeyspace where
  name : String
  planDone : Bool
  filters : List Filter
  joinfilters : List Filter
deriving DecidableEq, Repr

/-- The classifier state: the base-keyspace table plus the recursion
bookkeeping fields of `exprClassifier`. -/
structure CState where
  bks : List BaseKeyspace
  recursionFlag : Bool
  recurseExpr : Option Pred
  recursionJoin : Bool
  recurseJoinExpr : Option Pred
deriving DecidableEq, Repr

inductive CErr where
  | fuel
  | emptyBKS
  | missingKeyspace (k : String)
deriving DecidableEq, Repr

def bkNames (bks : List BaseKeyspace) : List String := bks.map (·.name)

def findBK (bks : List BaseKeyspace) (k : String) : Option BaseKeyspace :=
  bks.find? (fun b => b.name == k)

def appendFilter (bks : List BaseKeyspace) (k : String) (f : Filter) (toJoin : Bool) :
    List BaseKeyspace :=
  bks.map fun b =>
    if b.name == k then
      if toJoin then { b with joinfilters := b.joinfilters ++ [f] }
      else { b with filters := b.filters ++ [f] }
    else b

/-- Modelled from the spec: `copyBaseKeyspaces` — fresh per-keyspace records
(name and plan status preserved, no filters carried over), used to classify
each disjunct against copies of the base-keyspace table. -/
def copyBKs (bks : List BaseKeyspace) : List BaseKeyspace :=
  bks.map fun b => ⟨b.name, b.planDone, [], []⟩

def freshState (bks : List BaseKeyspace) : CState :=
  ⟨copyBKs bks, false, none, false, none⟩

def filtersOfL (bks : List BaseKeyspace) (k : String) : List Filter :=
  ((findBK bks k).map (·.filters)).getD []

def joinfiltersOfL (bks : List BaseKeyspace) (k : String) : List Filter :=
  ((findBK bks k).map (·.joinfilters)).getD []

/-- `NewAnd`-folding of `extractExpr`'s `newTerm` accumulation over a
filter list; `none` models `newTerm == nil` (no filters). -/
def andFoldOpt : List Pred → Option Pred
  | [] => none
  | p :: rest => some (rest.foldl Pred.and p)

/-- `NewOr(terms...)` with the variadic Or as a left-nested binary tree;
the empty list (an operand-less Or) is modelled as `none`. -/
def orFoldOpt : List Pred → Option Pred
  | [] => none
  | p :: rest => some (rest.foldl Pred.or p)

/-- The disjunct loop of `exprClassifier.extractExpr`: classify each
disjunct against a fresh copy of the table, collect keyspace `k`'s filters
as an inner AND, abort if a disjunct contributes none. -/
def extractLoop (classify : Pred → CState → Except CErr CState) (k : String)
    (bks : List BaseKeyspace) :
    List Pred → List Pred → List Pred → Bool →
      Except CErr (Option (Pred × Option Pred × Bool))
  | [], newTerms, newOrigs, isJ =>
      .ok ((orFoldOpt newTerms).map (fun np => (np, orFoldOpt newOrigs, isJ)))
  | dj :: rest, newTerms, newOrigs, isJ => do
      let st' ← classify dj (freshState bks)
      let fls := filtersOfL st'.bks k
      match andFoldOpt (fls.map (·.fltrExpr)) with
      | none => .ok none
      | some newTerm =>
          extractLoop classify k bks rest (newTerms ++ [newTerm])
            (newOrigs ++ (andFoldOpt (fls.filterMap (·.origExpr))).toList)
            (isJ || fls.any (·.join))

/-- `exprClassifier.extractExpr(or, keyspaceName)`; a constant-true
disjunct (`flattenOr`'s truth flag) aborts the extraction. -/
def extractCore (classify : Pred → CState → Except CErr CState) (d : Pred)
    (k : String) (bks : List BaseKeyspace) :
    Except CErr (Option (Pred × Option Pred × Bool)) :=
  let ds := d.orLeaves
  if ds.any (·.constTruth) then .ok none
  else extractLoop classify k bks ds [] [] false

/-- `exprClassifier.visitDefault` (part_002:286-398), with a fuel argument
standing in for Go's unbounded recursion; every recursive call runs at
`n`.  The body follows the source: drop constant-true conjuncts and
conjuncts mentioning no keyspace, apply the DNF-lite rewrite, recurse if it
yields an AND (with the `recurseExpr`/`recurseJoinExpr` bookkeeping),
otherwise attribute a filter to each mentioned keyspace — `filters` for a
single keyspace, `joinfilters` for several, plus the OR extraction. -/
def visitDefaultF : Nat → Bool → Pred → CState → Except CErr CState
  | 0, _, _, _ => .error .fuel
  | n+1, onc, p, st =>
      if p.constTruth then .ok st
      else
        let names := bkNames st.bks
        let K := keyspacesOf names p
        if K.isEmpty then .ok st
        else
          let d := dnfMap p
          if d.isAnd then
            if K.length == 1 then
              let saved := st.recursionFlag
              let st1 : CState :=
                { st with recursionFlag := true,
                          recurseExpr :=
                            if st.recurseExpr.isNone then some p else st.recurseExpr }
              (d.conjuncts.foldlM (fun s c => visitDefaultF n onc c s) st1).map
                (fun s2 => { s2 with recursionFlag := saved })
            else
              let saved := st.recursionJoin
              let st1 : CState :=
                { st with recursionJoin := true,
                          recurseJoinExpr :=
                            if st.recurseJoinExpr.isNone then some p else st.recurseJoinExpr }
              (d.conjuncts.foldlM (fun s c => visitDefaultF n onc c s) st1).map
                (fun s2 => { s2 with recursionJoin := saved })
          else
            let origAndSt : Option Pred × CState :=
              if K.length == 1 then
                if st.recursionFlag then (st.recurseExpr, { st with recurseExpr := none })
                else (some p, st)
              else
                if st.recursionJoin then
                  (st.recurseJoinExpr, { st with recurseJoinExpr := none })
                else (some p, st)
            let orig := origAndSt.1
            let st1 := origAndSt.2
            let isJoin : Bool := decide (1 < K.length)
            let K2 := if onc then
                K.filter (fun k =>
                  match findBK st1.bks k with
                  | some b => !b.planDone
                  | none => true)
              else K
            let fl : Filter := ⟨d, orig, K2, onc, isJoin⟩
            K2.foldlM (fun s k =>
              match findBK s.bks k with
              | none => .error (.missingKeyspace k)
              | some _ =>
                  if K2.length == 1 then
                    .ok { s with bks := appendFilter s.bks k fl false }
                  else
                    let s1 : CState := { s with bks := appendFilter s.bks k fl true }
                    if d.isOr then
                      match extractCore
                          (fun dj stc =>
                            if stc.bks.isEmpty then .error .emptyBKS
                            else dj.conjuncts.foldlM
                              (fun s2 c => visitDefaultF n onc c s2) stc)
                          d k s1.bks with
                      | .error e => .error e
                      | .ok none => .ok s1
                      | .ok (some (np, no, oj)) =>
                          .ok { s1 with
                                  bks := appendFilter s1.bks k ⟨np, no, [k], onc, oj⟩ false }
                    else .ok s1) st1

/-- `ClassifyExpr(expr, baseKeyspaces, isOnclause)`: reject an empty
keyspace table, then split on AND boundaries — `VisitAnd` flattens nested
ANDs, every other top node goes to `visitDefault`. -/
def classifyF (fuel : Nat) (onc : Bool) (p : Pred) (st : CState) : Except CErr CState :=
  if st.bks.isEmpty then .error .emptyBKS
  else p.conjuncts.foldlM (fun s c => visitDefaultF fuel onc c s) st

/-- `extractExpr` as called with the current table. -/
def extractF (fuel : Nat) (onc : Bool) (d : Pred) (k : String)
    (bks : List BaseKeyspace) : Except CErr (Option (Pred × Option Pred × Bool)) :=
  extractCore (fun dj stc => classifyF fuel onc dj stc) d k bks

theorem classify_fun_eq (n : Nat) (onc : Bool) :
    (fun dj stc =>
        if stc.bks.isEmpty then (Except.error CErr.emptyBKS : Except CErr CState)
        else dj.conjuncts.foldlM (fun s2 c => visitDefaultF n onc c s2) stc) =
      fun dj stc => classifyF n onc dj stc := rfl

/-! ### Size bookkeeping for the recursion -/

theorem Pred.nsize_pos (p : Pred) : 1 ≤ p.nsize := by
  cases p <;> simp only [Pred.nsize] <;> omega

theorem dnfMap_nsize (p : Pred) : (dnfMap p).nsize ≤ p.nsize := by
  induction p with
  | tt => simp [dnfMap]
  | ff => simp [dnfMap]
  | atom ks id => simp [dnfMap]
  | and l r ihl ihr =>
      simp only [dnfMap, Pred.nsize]
      omega
  | or l r ihl ihr =>
      simp only [dnfMap, Pred.nsize]
      omega
  | not q ihq =>
      unfold dnfMap
      have hq := Pred.nsize_pos q
      cases hm : dnfMap q with
      | tt => rw [hm] at ihq; simp only [Pred.nsize] at ihq ⊢; omega
      | ff => rw [hm] at ihq; simp only [Pred.nsize] at ihq ⊢; omega
      | atom ks id => rw [hm] at ihq; simp only [Pred.nsize] at ihq ⊢; omega
      | and a b => rw [hm] at ihq; simp only [Pred.nsize] at ihq ⊢; omega
      | or a b => rw [hm] at ihq; simp only [Pred.nsize] at ihq ⊢; omega
      | not r => rw [hm] at ihq; simp only [Pred.nsize] at ihq ⊢; omega

theorem mem_conjuncts_nsize : ∀ (p : Pred), ∀ c ∈ p.conjuncts, c.nsize ≤ p.nsize
  | .tt, c, hc => by simp [Pred.conjuncts] at hc; subst hc; exact le_refl _
  | .ff, c, hc => by simp [Pred.conjuncts] at hc; subst hc; exact le_refl _
  | .atom ks id, c, hc => by simp [Pred.conjuncts] at hc; subst hc; exact le_refl _
  | .or l r, c, hc => by simp [Pred.conjuncts] at hc; subst hc; exact le_refl _
  | .not q, c, hc => by simp [Pred.conjuncts] at hc; subst hc; exact le_refl _
  | .and l r, c, hc => by
      rw [Pred.conjuncts] at hc
      rcases List.mem_append.mp hc with h | h
      · have := mem_conjuncts_nsize l c h
        simp only [Pred.nsize]
        omega
      · have := mem_conjuncts_nsize r c h
        simp only [Pred.nsize]
        omega

theorem mem_conjuncts_nsize_lt (p : Pred) (hand : p.isAnd = true) :
    ∀ c ∈ p.conjuncts, c.nsize < p.nsize := by
  cases p <;> simp [Pred.isAnd] at hand
  case and l r =>
    intro c hc
    rw [Pred.conjuncts] at hc
    have hl := Pred.nsize_pos l
    have hr := Pred.nsize_pos r
    rcases List.mem_append.mp hc with h | h
    · have := mem_conjuncts_nsize l c h
      simp only [Pred.nsize]
      omega
    · have := mem_conjuncts_nsize r c h
      simp only [Pred.nsize]
      omega

theorem mem_orLeaves_nsize : ∀ (p : Pred), ∀ c ∈ p.orLeaves, c.nsize ≤ p.nsize
  | .tt, c, hc => by simp [Pred.orLeaves] at hc; subst hc; exact le_refl _
  | .ff, c, hc => by simp [Pred.orLeaves] at hc; subst hc; exact le_refl _
  | .atom ks id, c, hc => by simp [Pred.orLeaves] at hc; subst hc; exact le_refl _
  | .and l r, c, hc => by simp [Pred.orLeaves] at hc; subst hc; exact le_refl _
  | .not q, c, hc => by simp [Pred.orLeaves] at hc; subst hc; exact le_refl _
  | .or l r, c, hc => by
      rw [Pred.orLeaves] at hc
      rcases List.mem_append.mp hc with h | h
      · have := mem_orLeaves_nsize l c h
        simp only [Pred.nsize]
        omega
      · have := mem_orLeaves_nsize r c h
        simp only [Pred.nsize]
        omega

theorem mem_orLeaves_nsize_lt (p : Pred) (hor : p.isOr = true) :
    ∀ c ∈ p.orLeaves, c.nsize < p.nsize := by
  cases p <;> simp [Pred.isOr] at hor
  case or l r =>
    intro c hc
    rw [Pred.orLeaves] at hc
    have hl := Pred.nsize_pos l
    have hr := Pred.nsize_pos r
    rcases List.mem_append.mp hc with h | h
    · have := mem_orLeaves_nsize l c h
      simp only [Pred.nsize]
      omega
    · have := mem_orLeaves_nsize r c h
      simp only [Pred.nsize]
      omega

/-! ### Facts about the keyspace table operations -/

theorem mem_keyspacesOf (names : List String) (p : Pred) (k : String)
    (h : k ∈ keyspacesOf names p) : k ∈ names := by
  unfold keyspacesOf at h
  have h1 := List.mem_dedup.mp h
  have h2 := List.of_mem_filter h1
  simpa using h2

theorem keyspacesOf_nodup (names : List String) (p : Pred) :
    (keyspacesOf names p).Nodup :=
  List.nodup_dedup _

theorem constTruth_shape (p : Pred) (h : p.constTruth = true) : p = .tt := by
  cases p <;> simp [Pred.constTruth, Pred.value, Value.truth] at h ⊢

theorem keyspacesOf_constTruth (names : List String) (p : Pred)
    (h : p.constTruth = true) : keyspacesOf names p = [] := by
  rw [constTruth_shape p h]
  rfl

theorem findBK_isSome_of_mem (bks : List BaseKeyspace) (k : String)
    (h : k ∈ bkNames bks) : ∃ b, findBK bks k = some b ∧ b.name = k := by
  induction bks with
  | nil => simp [bkNames] at h
  | cons b rest ih =>
      by_cases hb : b.name = k
      · exact ⟨b, by simp [findBK, List.find?_cons_of_pos, hb], hb⟩
      · have h' : k ∈ bkNames rest := by
          rcases (by simpa [bkNames] using h : k = b.name ∨ k ∈ bkNames rest) with h1 | h1
          · exact absurd h1.symm hb
          · exact h1
        obtain ⟨bb, hbb, hname⟩ := ih h'
        refine ⟨bb, ?_, hname⟩
        unfold findBK at hbb ⊢
        rw [List.find?_cons_of_neg, hbb]
        simpa using hb

theorem findBK_name (bks : List BaseKeyspace) (k : String) (b : BaseKeyspace)
    (h : findBK bks k = some b) : b.name = k := by
  have := List.find?_some h
  simpa using this

theorem appendFilter_name_eq (b : BaseKeyspace) (k : String) (f : Filter) (tj : Bool) :
    ((if b.name == k then
        (if tj then { b with joinfilters := b.joinfilters ++ [f] }
         else { b with filters := b.filters ++ [f] })
      else b) : BaseKeyspace).name = b.name := by
  split_ifs <;> rfl

theorem bkNames_appendFilter (bks : List BaseKeyspace) (k : String) (f : Filter) (tj : Bool) :
    bkNames (appendFilter bks k f tj) = bkNames bks := by
  unfold bkNames appendFilter
  rw [List.map_map]
  apply List.map_congr_left
  intro b _
  simp only [Function.comp]
  exact appendFilter_name_eq b k f tj

theorem copyBKs_appendFilter (bks : List BaseKeyspace) (k : String) (f : Filter) (tj : Bool) :
    copyBKs (appendFilter bks k f tj) = copyBKs bks := by
  unfold copyBKs appendFilter
  rw [List.map_map]
  apply List.map_congr_left
  intro b _
  simp only [Function.comp]
  split_ifs <;> rfl

theorem findBK_appendFilter (bks : List BaseKeyspace) (k : String) (f : Filter)
    (tj : Bool) (j : String) :
    findBK (appendFilter bks k f tj) j =
      (findBK bks j).map (fun b =>
        if b.name == k then
          (if tj then { b with joinfilters := b.joinfilters ++ [f] }
           else { b with filters := b.filters ++ [f] })
        else b) := by
  induction bks with
  | nil => rfl
  | cons b rest ih =>
      unfold findBK appendFilter at ih ⊢
      simp only [List.map_cons]
      by_cases hb : b.name = j
      · have hb1 : (((if b.name == k then
              (if tj then { b with joinfilters := b.joinfilters ++ [f] }
               else { b with filters := b.filters ++ [f] })
            else b) : BaseKeyspace).name == j) = true := by
          rw [appendFilter_name_eq]
          simpa using hb
        have hb2 : (b.name == j) = true := by simpa using hb
        rw [List.find?_cons, List.find?_cons, hb1, hb2]
        rfl
      · have hb1 : (((if b.name == k then
              (if tj then { b with joinfilters := b.joinfilters ++ [f] }
               else { b with filters := b.filters ++ [f] })
            else b) : BaseKeyspace).name == j) = false := by
          rw [appendFilter_name_eq]
          simpa using hb
        have hb2 : (b.name == j) = false := by simpa using hb
        rw [List.find?_cons, List.find?_cons, hb1, hb2]
        exact ih

theorem filtersOfL_appendFilter_self (bks : List BaseKeyspace) (k : String) (f : Filter)
    (h : k ∈ bkNames bks) :
    filtersOfL (appendFilter bks k f false) k = filtersOfL bks k ++ [f] := by
  obtain ⟨b, hb, hname⟩ := findBK_isSome_of_mem bks k h
  unfold filtersOfL
  rw [findBK_appendFilter, hb]
  simp [hname]

theorem joinfiltersOfL_appendFilter_self (bks : List BaseKeyspace) (k : String) (f : Filter)
    (h : k ∈ bkNames bks) :
    joinfiltersOfL (appendFilter bks k f true) k = joinfiltersOfL bks k ++ [f] := by
  obtain ⟨b, hb, hname⟩ := findBK_isSome_of_mem bks k h
  unfold joinfiltersOfL
  rw [findBK_appendFilter, hb]
  simp [hname]

theorem filtersOfL_appendFilter_join (bks : List BaseKeyspace) (k j : String) (f : Filter) :
    filtersOfL (appendFilter bks k f true) j = filtersOfL bks j := by
  unfold filtersOfL
  rw [findBK_appendFilter]
  cases hb : findBK bks j with
  | none => rfl
  | some b =>
      simp only [Option.map_some', Option.getD_some]
      split_ifs <;> first | rfl | contradiction

theorem joinfiltersOfL_appendFilter_false (bks : List BaseKeyspace) (k j : String) (f : Filter) :
    joinfiltersOfL (appendFilter bks k f false) j = joinfiltersOfL bks j := by
  unfold joinfiltersOfL
  rw [findBK_appendFilter]
  cases hb : findBK bks j with
  | none => rfl
  | some b =>
      simp only [Option.map_some', Option.getD_some]
      split_ifs <;> first | rfl | contradiction

theorem filtersOfL_appendFilter_other (bks : List BaseKeyspace) (k j : String) (f : Filter)
    (tj : Bool) (h : j ≠ k) :
    filtersOfL (appendFilter bks k f tj) j = filtersOfL bks j := by
  unfold filtersOfL
  rw [findBK_appendFilter]
  cases hb : findBK bks j with
  | none => rfl
  | some b =>
      have hbn : b.name = j := findBK_name bks j b hb
      have hprop : ¬ b.name = k := by
        rw [hbn]
        exact h
      simp [hprop]

theorem joinfiltersOfL_appendFilter_other (bks : List BaseKeyspace) (k j : String) (f : Filter)
    (tj : Bool) (h : j ≠ k) :
    joinfiltersOfL (appendFilter bks k f tj) j = joinfiltersOfL bks j := by
  unfold joinfiltersOfL
  rw [findBK_appendFilter]
  cases hb : findBK bks j with
  | none => rfl
  | some b =>
      have hbn : b.name = j := findBK_name bks j b hb
      have hprop : ¬ b.name = k := by
        rw [hbn]
        exact h
      simp [hprop]

/-- Sum over all base keyspaces of the number of recorded `filters`. -/
def sumFilters (bks : List BaseKeyspace) : Nat :=
  (bks.map (·.filters.length)).sum

theorem appendFilter_of_not_mem (k : String) (f : Filter) (tj : Bool) :
    ∀ (bks : List BaseKeyspace), k ∉ bkNames bks → appendFilter bks k f tj = bks := by
  intro bks
  induction bks with
  | nil => intro _; rfl
  | cons b rest ih =>
      intro h
      have hsplit : ¬ (k = b.name ∨ k ∈ bkNames rest) := by simpa [bkNames] using h
      push_neg at hsplit
      have hb : (b.name == k) = false := by simpa using (Ne.symm hsplit.1)
      have ht := ih hsplit.2
      unfold appendFilter at ht ⊢
      simp only [List.map_cons, hb, Bool.false_eq_true, if_false, ht]

theorem sumFilters_cons (b : BaseKeyspace) (rest : List BaseKeyspace) :
    sumFilters (b :: rest) = b.filters.length + sumFilters rest := by
  simp [sumFilters]

theorem appendFilter_cons (b : BaseKeyspace) (rest : List BaseKeyspace) (k : String)
    (f : Filter) (tj : Bool) :
    appendFilter (b :: rest) k f tj =
      (if b.name == k then
        (if tj then { b with joinfilters := b.joinfilters ++ [f] }
         else { b with filters := b.filters ++ [f] })
       else b) :: appendFilter rest k f tj := rfl

theorem bkNames_cons (b : BaseKeyspace) (rest : List BaseKeyspace) :
    bkNames (b :: rest) = b.name :: bkNames rest := rfl

theorem sumFilters_appendFilter (k : String) (f : Filter) :
    ∀ (bks : List BaseKeyspace), (bkNames bks).Nodup → k ∈ bkNames bks →
      sumFilters (appendFilter bks k f false) = sumFilters bks + 1 := by
  intro bks
  induction bks with
  | nil => intro _ h; simp [bkNames] at h
  | cons b rest ih =>
      intro hnd h
      rw [bkNames_cons] at hnd h
      have hnd' : (bkNames rest).Nodup := (List.nodup_cons.mp hnd).2
      rw [appendFilter_cons]
      by_cases hb : b.name = k
      · have hk : (b.name == k) = true := by simpa using hb
        have hnotin : k ∉ bkNames rest := by
          have h1 := (List.nodup_cons.mp hnd).1
          rw [hb] at h1
          exact h1
        rw [appendFilter_of_not_mem k f false rest hnotin, sumFilters_cons, sumFilters_cons]
        simp only [hk, if_true, Bool.false_eq_true, if_false]
        simp only [List.length_append, List.length_cons, List.length_nil]
        omega
      · have hk : (b.name == k) = false := by simpa using hb
        have hmem : k ∈ bkNames rest := by
          rcases List.mem_cons.mp h with h1 | h1
          · exact absurd h1.symm hb
          · exact h1
        rw [sumFilters_cons, sumFilters_cons]
        simp only [hk, Bool.false_eq_true, if_false]
        rw [ih hnd' hmem]
        omega

/-! ### Named views of the pieces of `visitDefaultF` (definitionally equal
to the inlined lambdas, so the branch lemmas below hold by `rfl`). -/

/-- The recursive `ClassifyExpr` call as made from `extractExpr`. -/
def vdClassify (n : Nat) (onc : Bool) (dj : Pred) (stc : CState) : Except CErr CState :=
  if stc.bks.isEmpty then .error .emptyBKS
  else dj.conjuncts.foldlM (fun s2 c => visitDefaultF n onc c s2) stc

/-- One iteration of the `for kspace := range keyspaces` loop. -/
def vdStep (n : Nat) (onc : Bool) (d : Pred) (K2 : List String) (fl : Filter)
    (s : CState) (k : String) : Except CErr CState :=
  match findBK s.bks k with
  | none => .error (.missingKeyspace k)
  | some _ =>
      if K2.length == 1 then
        .ok { s with bks := appendFilter s.bks k fl false }
      else
        let s1 : CState := { s with bks := appendFilter s.bks k fl true }
        if d.isOr then
          match extractCore (vdClassify n onc) d k s1.bks with
          | .error e => .error e
          | .ok none => .ok s1
          | .ok (some (np, no, oj)) =>
              .ok { s1 with bks := appendFilter s1.bks k ⟨np, no, [k], onc, oj⟩ false }
        else .ok s1

theorem classifyF_eq_vdClassify (n : Nat) (onc : Bool) :
    classifyF n onc = vdClassify n onc := rfl

theorem visitDefaultF_constTruth (n : Nat) (onc : Bool) (p : Pred) (st : CState)
    (h : p.constTruth = true) : visitDefaultF (n + 1) onc p st = .ok st := by
  simp only [visitDefaultF, h, if_true]

theorem visitDefaultF_noKS (n : Nat) (onc : Bool) (p : Pred) (st : CState)
    (h : p.constTruth = false) (hK : keyspacesOf (bkNames st.bks) p = []) :
    visitDefaultF (n + 1) onc p st = .ok st := by
  simp only [visitDefaultF, h, Bool.false_eq_true, if_false, hK, List.isEmpty_nil, if_true]

theorem visitDefaultF_and (n : Nat) (onc : Bool) (p : Pred) (st : CState)
    (h : p.constTruth = false)
    (hK : (keyspacesOf (bkNames st.bks) p).isEmpty = false)
    (hand : (dnfMap p).isAnd = true) :
    visitDefaultF (n + 1) onc p st =
      (if (keyspacesOf (bkNames st.bks) p).length == 1 then
        (((dnfMap p).conjuncts.foldlM (fun s c => visitDefaultF n onc c s)
            { st with recursionFlag := true,
                      recurseExpr :=
                        if st.recurseExpr.isNone then some p else st.recurseExpr }).map
          (fun s2 => { s2 with recursionFlag := st.recursionFlag }))
      else
        (((dnfMap p).conjuncts.foldlM (fun s c => visitDefaultF n onc c s)
            { st with recursionJoin := true,
                      recurseJoinExpr :=
                        if st.recurseJoinExpr.isNone then some p else st.recurseJoinExpr }).map
          (fun s2 => { s2 with recursionJoin := st.recursionJoin }))) := by
  simp only [visitDefaultF, h, Bool.false_eq_true, if_false, hK, hand, if_true]

theorem visitDefaultF_default (n : Nat) (onc : Bool) (p : Pred) (st : CState)
    (h : p.constTruth = false)
    (hK : (keyspacesOf (bkNames st.bks) p).isEmpty = false)
    (hand : (dnfMap p).isAnd = false) :
    visitDefaultF (n + 1) onc p st =
      (let K := keyspacesOf (bkNames st.bks) p
       let pair : Option Pred × CState :=
         if K.length == 1 then
           if st.recursionFlag then (st.recurseExpr, { st with recurseExpr := none })
           else (some p, st)
         else
           if st.recursionJoin then
             (st.recurseJoinExpr, { st with recurseJoinExpr := none })
           else (some p, st)
       let K2 := if onc then
           K.filter (fun k =>
             match findBK pair.2.bks k with
             | some b => !b.planDone
             | none => true)
         else K
       K2.foldlM
         (vdStep n onc (dnfMap p) K2 ⟨dnfMap p, pair.1, K2, onc, decide (1 < K.length)⟩)
         pair.2) := by
  simp only [visitDefaultF, h, Bool.false_eq_true, if_false, hK, hand]
  rfl

/-! ### Totality: enough fuel never yields an error -/

theorem except_bind_ok {α β : Type} (x : α) (g : α → Except CErr β) :
    ((Except.ok x : Except CErr α) >>= g) = g x := rfl

theorem foldlM_ok_simple {α : Type} (step : CState → α → Except CErr CState) :
    ∀ (l : List α), (∀ a ∈ l, ∀ s, ∃ s', step s a = .ok s') →
      ∀ s, ∃ s', l.foldlM step s = .ok s' := by
  intro l
  induction l with
  | nil => intro _ s; exact ⟨s, rfl⟩
  | cons a rest ih =>
      intro h s
      obtain ⟨s1, hs1⟩ := h a (List.mem_cons_self a rest) s
      obtain ⟨s2, hs2⟩ := ih (fun b hb s => h b (List.mem_cons_of_mem a hb) s) s1
      refine ⟨s2, ?_⟩
      rw [List.foldlM_cons, hs1, except_bind_ok, hs2]

theorem extractLoop_ok (classify : Pred → CState → Except CErr CState) (k : String)
    (bks : List BaseKeyspace) :
    ∀ (ds : List Pred), (∀ dj ∈ ds, ∃ s', classify dj (freshState bks) = .ok s') →
      ∀ nt no isJ, ∃ r, extractLoop classify k bks ds nt no isJ = .ok r := by
  intro ds
  induction ds with
  | nil => intro _ nt no isJ; exact ⟨_, rfl⟩
  | cons dj rest ih =>
      intro hcl nt no isJ
      obtain ⟨s', hs'⟩ := hcl dj (List.mem_cons_self dj rest)
      rw [extractLoop, hs', except_bind_ok]
      dsimp only
      cases haf : andFoldOpt (List.map (fun x => x.fltrExpr) (filtersOfL s'.bks k)) with
      | none => exact ⟨none, rfl⟩
      | some t =>
          exact ih (fun b hb => hcl b (List.mem_cons_of_mem dj hb)) _ _ _

theorem extractCore_ok (classify : Pred → CState → Except CErr CState) (d : Pred)
    (k : String) (bks : List BaseKeyspace)
    (hcl : ∀ dj ∈ d.orLeaves, ∃ s', classify dj (freshState bks) = .ok s') :
    ∃ r, extractCore classify d k bks = .ok r := by
  unfold extractCore
  by_cases ht : (d.orLeaves.any (·.constTruth)) = true
  · rw [if_pos ht]
    exact ⟨none, rfl⟩
  · rw [if_neg ht]
    exact extractLoop_ok classify k bks d.orLeaves hcl [] [] false

theorem copyBKs_ne_nil (bks : List BaseKeyspace) (h : bks ≠ []) :
    (copyBKs bks).isEmpty = false := by
  unfold copyBKs
  rcases bks with _ | ⟨b, rest⟩
  · exact absurd rfl h
  · rfl

theorem vdClassify_ok (n : Nat) (onc : Bool) (dj : Pred) (stc : CState)
    (hbks : stc.bks ≠ [])
    (hvd : ∀ c ∈ dj.conjuncts, ∀ s, ∃ s', visitDefaultF n onc c s = .ok s') :
    ∃ s', vdClassify n onc dj stc = .ok s' := by
  unfold vdClassify
  have : stc.bks.isEmpty = false := by
    rcases h : stc.bks with _ | ⟨b, rest⟩
    · exact absurd h hbks
    · rfl
  rw [this]
  simp only [Bool.false_eq_true, if_false]
  exact foldlM_ok_simple _ dj.conjuncts (fun c hc s => hvd c hc s) stc

theorem foldlM_ok_inv {α : Type} (step : CState → α → Except CErr CState)
    (Inv : CState → Prop) :
    ∀ (l : List α),
      (∀ a ∈ l, ∀ s, Inv s → ∃ s', step s a = .ok s' ∧ Inv s') →
      ∀ s, Inv s → ∃ s', l.foldlM step s = .ok s' := by
  intro l
  induction l with
  | nil => intro _ s _; exact ⟨s, rfl⟩
  | cons a rest ih =>
      intro h s hs
      obtain ⟨s1, hs1, hinv1⟩ := h a (List.mem_cons_self a rest) s hs
      obtain ⟨s2, hs2⟩ := ih (fun b hb s hs => h b (List.mem_cons_of_mem a hb) s hs) s1 hinv1
      refine ⟨s2, ?_⟩
      rw [List.foldlM_cons, hs1, except_bind_ok, hs2]

theorem ne_nil_of_mem_bkNames (bks : List BaseKeyspace) (k : String)
    (h : k ∈ bkNames bks) : bks ≠ [] := by
  intro hcon
  rw [hcon] at h
  simp [bkNames] at h

theorem appendFilter_ne_nil (bks : List BaseKeyspace) (k : String) (f : Filter) (tj : Bool)
    (h : bks ≠ []) : appendFilter bks k f tj ≠ [] := by
  rcases bks with _ | ⟨b, rest⟩
  · exact absurd rfl h
  · rw [appendFilter_cons]
    exact List.cons_ne_nil _ _

theorem copyBKs_ne_nil' (bks : List BaseKeyspace) (h : bks ≠ []) : copyBKs bks ≠ [] := by
  rcases bks with _ | ⟨b, rest⟩
  · exact absurd rfl h
  · exact List.cons_ne_nil _ _

theorem vdStep_ok (n : Nat) (onc : Bool) (d : Pred) (K2 : List String) (fl : Filter)
    (hex : d.isOr = true → ∀ dj ∈ d.orLeaves, ∀ c ∈ dj.conjuncts, ∀ s,
        ∃ s', visitDefaultF n onc c s = .ok s')
    (s : CState) (k : String) (hk : k ∈ bkNames s.bks) :
    ∃ s', vdStep n onc d K2 fl s k = .ok s' ∧ bkNames s'.bks = bkNames s.bks := by
  obtain ⟨b, hb, _⟩ := findBK_isSome_of_mem s.bks k hk
  unfold vdStep
  rw [hb]
  by_cases hlen : (K2.length == 1) = true
  · rw [if_pos hlen]
    exact ⟨_, rfl, by rw [bkNames_appendFilter]⟩
  · rw [if_neg hlen]
    by_cases hor : d.isOr = true
    · rw [if_pos hor]
      have hne : appendFilter s.bks k fl true ≠ [] :=
        appendFilter_ne_nil s.bks k fl true (ne_nil_of_mem_bkNames s.bks k hk)
      have hcl : ∀ dj ∈ d.orLeaves,
          ∃ s', vdClassify n onc dj (freshState (appendFilter s.bks k fl true)) = .ok s' := by
        intro dj hdj
        refine vdClassify_ok n onc dj _ ?_ (fun c hc s2 => hex hor dj hdj c hc s2)
        exact copyBKs_ne_nil' _ hne
      obtain ⟨r, hr⟩ := extractCore_ok (vdClassify n onc) d k _ hcl
      rw [hr]
      cases r with
      | none => exact ⟨_, rfl, by rw [bkNames_appendFilter]⟩
      | some t =>
          rcases t with ⟨np, no, oj⟩
          refine ⟨_, rfl, ?_⟩
          rw [bkNames_appendFilter, bkNames_appendFilter]
    · rw [Bool.not_eq_true] at hor
      rw [hor]
      simp only [Bool.false_eq_true, if_false]
      exact ⟨_, rfl, by rw [bkNames_appendFilter]⟩

theorem visitDefaultF_ok :
    ∀ (fuel : Nat) (onc : Bool) (p : Pred) (st : CState), 3 * p.nsize ≤ fuel →
      ∃ s', visitDefaultF fuel onc p st = .ok s'
  | 0, _, p, _, h => absurd h (by have := Pred.nsize_pos p; omega)
  | n + 1, onc, p, st, h => by
      by_cases hct : p.constTruth = true
      · exact ⟨st, visitDefaultF_constTruth n onc p st hct⟩
      · rw [Bool.not_eq_true] at hct
        by_cases hK : (keyspacesOf (bkNames st.bks) p).isEmpty = true
        · refine ⟨st, visitDefaultF_noKS n onc p st hct ?_⟩
          simpa [List.isEmpty_iff] using hK
        · rw [Bool.not_eq_true] at hK
          by_cases hand : (dnfMap p).isAnd = true
          · have hfold : ∀ c ∈ (dnfMap p).conjuncts, ∀ s,
                ∃ s', visitDefaultF n onc c s = .ok s' := by
              intro c hc s
              have h1 := mem_conjuncts_nsize_lt (dnfMap p) hand c hc
              have h2 := dnfMap_nsize p
              exact visitDefaultF_ok n onc c s (by omega)
            rw [visitDefaultF_and n onc p st hct hK hand]
            by_cases hlen : ((keyspacesOf (bkNames st.bks) p).length == 1) = true
            · rw [if_pos hlen]
              obtain ⟨s2, hs2⟩ := foldlM_ok_simple _ _ hfold _
              exact ⟨_, by rw [hs2]; rfl⟩
            · rw [if_neg hlen]
              obtain ⟨s2, hs2⟩ := foldlM_ok_simple _ _ hfold _
              exact ⟨_, by rw [hs2]; rfl⟩
          · rw [Bool.not_eq_true] at hand
            rw [visitDefaultF_default n onc p st hct hK hand]
            have hex : (dnfMap p).isOr = true →
                ∀ dj ∈ (dnfMap p).orLeaves, ∀ c ∈ dj.conjuncts, ∀ s,
                  ∃ s', visitDefaultF n onc c s = .ok s' := by
              intro hor dj hdj c hc s
              have h1 := mem_orLeaves_nsize_lt (dnfMap p) hor dj hdj
              have h2 := mem_conjuncts_nsize dj c hc
              have h3 := dnfMap_nsize p
              exact visitDefaultF_ok n onc c s (by omega)
            -- the per-keyspace fold keeps the table's names and each visited
            -- keyspace is one of them
            have hpairbks : (if (keyspacesOf (bkNames st.bks) p).length == 1 then
                  if st.recursionFlag then
                    (st.recurseExpr, { st with recurseExpr := none })
                  else (some p, st)
                else
                  if st.recursionJoin then
                    (st.recurseJoinExpr, { st with recurseJoinExpr := none })
                  else (some p, st) : Option Pred × CState).2.bks = st.bks := by
              split_ifs <;> rfl
            refine foldlM_ok_inv _ (fun s => bkNames s.bks = bkNames st.bks) _ ?_ _ ?_
            · intro k hk s hs
              have hkK : k ∈ keyspacesOf (bkNames st.bks) p := by
                rcases honc : onc with _ | _
                · rw [honc] at hk
                  simpa using hk
                · rw [honc] at hk
                  exact List.mem_of_mem_filter hk
              have hkn : k ∈ bkNames s.bks := by
                rw [hs]
                exact mem_keyspacesOf (bkNames st.bks) p k hkK
              obtain ⟨s', hstep, hnames⟩ := vdStep_ok n onc (dnfMap p) _ _ hex s k hkn
              have hs' : bkNames s.bks = bkNames st.bks := hs
              exact ⟨s', hstep, hnames.trans hs'⟩
            · exact congrArg bkNames hpairbks
termination_by fuel _ _ _ _ => fuel

/-! ### The effect of one keyspace iteration, and of the whole loop -/

theorem extractLoop_congr (classify : Pred → CState → Except CErr CState) (k : String)
    (bks1 bks2 : List BaseKeyspace) (h : copyBKs bks1 = copyBKs bks2) :
    ∀ (ds : List Pred) (nt no : List Pred) (isJ : Bool),
      extractLoop classify k bks1 ds nt no isJ = extractLoop classify k bks2 ds nt no isJ := by
  intro ds
  induction ds with
  | nil => intro nt no isJ; rfl
  | cons dj rest ih =>
      intro nt no isJ
      have hfs : freshState bks1 = freshState bks2 := by
        unfold freshState
        rw [h]
      rw [extractLoop, extractLoop, hfs]
      cases classify dj (freshState bks2) with
      | error e => rfl
      | ok s' =>
          rw [except_bind_ok, except_bind_ok]
          dsimp only
          cases andFoldOpt (List.map (fun x => x.fltrExpr) (filtersOfL s'.bks k)) with
          | none => rfl
          | some t => exact ih _ _ _

theorem extractCore_congr (classify : Pred → CState → Except CErr CState) (d : Pred)
    (k : String) (bks1 bks2 : List BaseKeyspace) (h : copyBKs bks1 = copyBKs bks2) :
    extractCore classify d k bks1 = extractCore classify d k bks2 := by
  unfold extractCore
  by_cases ht : (d.orLeaves.any (·.constTruth)) = true
  · rw [if_pos ht, if_pos ht]
  · rw [if_neg ht, if_neg ht]
    exact extractLoop_congr classify k bks1 bks2 h _ _ _ _

/-- The single-keyspace OR filter the extraction adds for keyspace `k`
(empty when the extraction does not apply or aborts). -/
def extraOf (n : Nat) (onc : Bool) (d : Pred) (k : String)
    (bks : List BaseKeyspace) : List Filter :=
  if d.isOr then
    match extractCore (vdClassify n onc) d k bks with
    | .ok (some (np, no, oj)) => [⟨np, no, [k], onc, oj⟩]
    | _ => []
  else []

theorem extraOf_congr (n : Nat) (onc : Bool) (d : Pred) (k : String)
    (bks1 bks2 : List BaseKeyspace) (h : copyBKs bks1 = copyBKs bks2) :
    extraOf n onc d k bks1 = extraOf n onc d k bks2 := by
  unfold extraOf
  rw [extractCore_congr (vdClassify n onc) d k bks1 bks2 h]

theorem vdStep_effect (n : Nat) (onc : Bool) (d : Pred) (K2 : List String) (fl : Filter)
    (hlen : (K2.length == 1) = false) (s : CState) (k : String)
    (hk : k ∈ bkNames s.bks)
    (hext : d.isOr = true →
      ∃ r, extractCore (vdClassify n onc) d k (appendFilter s.bks k fl true) = .ok r) :
    ∃ s', vdStep n onc d K2 fl s k = .ok s' ∧
      s'.recursionFlag = s.recursionFlag ∧ s'.recurseExpr = s.recurseExpr ∧
      s'.recursionJoin = s.recursionJoin ∧ s'.recurseJoinExpr = s.recurseJoinExpr ∧
      bkNames s'.bks = bkNames s.bks ∧ copyBKs s'.bks = copyBKs s.bks ∧
      joinfiltersOfL s'.bks k = joinfiltersOfL s.bks k ++ [fl] ∧
      filtersOfL s'.bks k = filtersOfL s.bks k ++ extraOf n onc d k s.bks ∧
      (∀ j, j ≠ k → joinfiltersOfL s'.bks j = joinfiltersOfL s.bks j ∧
        filtersOfL s'.bks j = filtersOfL s.bks j) := by
  obtain ⟨b, hb, _⟩ := findBK_isSome_of_mem s.bks k hk
  have hcongr : copyBKs (appendFilter s.bks k fl true) = copyBKs s.bks :=
    copyBKs_appendFilter s.bks k fl true
  unfold vdStep
  rw [hb, if_neg (by simp [hlen] : ¬ (K2.length == 1) = true)]
  by_cases hor : d.isOr = true
  · rw [if_pos hor]
    obtain ⟨r, hr⟩ := hext hor
    have hce : extractCore (vdClassify n onc) d k s.bks = .ok r :=
      (extractCore_congr (vdClassify n onc) d k _ _ hcongr).symm.trans hr
    cases r with
    | none =>
        rw [hr]
        have hextra : extraOf n onc d k s.bks = [] := by
          unfold extraOf
          rw [if_pos hor, hce]
        refine ⟨_, rfl, rfl, rfl, rfl, rfl, ?_, ?_, ?_, ?_, ?_⟩
        · exact bkNames_appendFilter s.bks k fl true
        · exact copyBKs_appendFilter s.bks k fl true
        · exact joinfiltersOfL_appendFilter_self s.bks k fl hk
        · rw [filtersOfL_appendFilter_join, hextra]
          simp
        · intro j hj
          exact ⟨joinfiltersOfL_appendFilter_other s.bks k j fl true hj,
            filtersOfL_appendFilter_other s.bks k j fl true hj⟩
    | some t =>
        rcases t with ⟨np, no, oj⟩
        rw [hr]
        have hextra : extraOf n onc d k s.bks =
            [(⟨np, no, [k], onc, oj⟩ : Filter)] := by
          unfold extraOf
          rw [if_pos hor, hce]
        have hk' : k ∈ bkNames (appendFilter s.bks k fl true) := by
          rw [bkNames_appendFilter]
          exact hk
        refine ⟨_, rfl, rfl, rfl, rfl, rfl, ?_, ?_, ?_, ?_, ?_⟩
        · rw [bkNames_appendFilter, bkNames_appendFilter]
        · rw [copyBKs_appendFilter, copyBKs_appendFilter]
        · rw [joinfiltersOfL_appendFilter_false,
            joinfiltersOfL_appendFilter_self s.bks k fl hk]
        · rw [filtersOfL_appendFilter_self _ k _ hk', filtersOfL_appendFilter_join, hextra]
        · intro j hj
          constructor
          · rw [joinfiltersOfL_appendFilter_false,
              joinfiltersOfL_appendFilter_other s.bks k j fl true hj]
          · rw [filtersOfL_appendFilter_other _ k j _ false hj,
              filtersOfL_appendFilter_other s.bks k j fl true hj]
  · rw [Bool.not_eq_true] at hor
    rw [hor]
    simp only [Bool.false_eq_true, if_false]
    have hextra : extraOf n onc d k s.bks = [] := by
      unfold extraOf
      rw [hor]
      simp
    refine ⟨_, rfl, rfl, rfl, rfl, rfl, ?_, ?_, ?_, ?_, ?_⟩
    · exact bkNames_appendFilter s.bks k fl true
    · exact copyBKs_appendFilter s.bks k fl true
    · exact joinfiltersOfL_appendFilter_self s.bks k fl hk
    · rw [filtersOfL_appendFilter_join, hextra]
      simp
    · intro j hj
      exact ⟨joinfiltersOfL_appendFilter_other s.bks k j fl true hj,
        filtersOfL_appendFilter_other s.bks k j fl true hj⟩

theorem vdStep_fold (n : Nat) (onc : Bool) (d : Pred) (K2 : List String) (fl : Filter)
    (hlen : (K2.length == 1) = false)
    (hext : d.isOr = true → ∀ (k : String) (bks : List BaseKeyspace), bks ≠ [] →
      ∃ r, extractCore (vdClassify n onc) d k bks = .ok r) :
    ∀ (rem : List String) (s : CState), rem.Nodup →
      (∀ k ∈ rem, k ∈ bkNames s.bks) →
      ∃ s', List.foldlM (vdStep n onc d K2 fl) s rem = .ok s' ∧
        s'.recursionFlag = s.recursionFlag ∧ s'.recurseExpr = s.recurseExpr ∧
        s'.recursionJoin = s.recursionJoin ∧ s'.recurseJoinExpr = s.recurseJoinExpr ∧
        bkNames s'.bks = bkNames s.bks ∧ copyBKs s'.bks = copyBKs s.bks ∧
        (∀ k ∈ rem, joinfiltersOfL s'.bks k = joinfiltersOfL s.bks k ++ [fl] ∧
          filtersOfL s'.bks k = filtersOfL s.bks k ++ extraOf n onc d k s.bks) ∧
        (∀ j, j ∉ rem → joinfiltersOfL s'.bks j = joinfiltersOfL s.bks j ∧
          filtersOfL s'.bks j = filtersOfL s.bks j) := by
  intro rem
  induction rem with
  | nil =>
      intro s _ _
      refine ⟨s, rfl, rfl, rfl, rfl, rfl, rfl, rfl, ?_, ?_⟩
      · intro k hkmem
        exact absurd hkmem (List.not_mem_nil k)
      · intro j _
        exact ⟨rfl, rfl⟩
  | cons k rest ih =>
      intro s hnd hmem
      have hk : k ∈ bkNames s.bks := hmem k (List.mem_cons_self k rest)
      have hsne : s.bks ≠ [] := ne_nil_of_mem_bkNames s.bks k hk
      have hext1 : d.isOr = true →
          ∃ r, extractCore (vdClassify n onc) d k (appendFilter s.bks k fl true) = .ok r := by
        intro hor
        exact hext hor k _ (appendFilter_ne_nil s.bks k fl true hsne)
      obtain ⟨s2, hs2, hf2, he2, hrj2, hje2, hn2, hc2, hjk2, hfk2, hoth2⟩ :=
        vdStep_effect n onc d K2 fl hlen s k hk hext1
      have hnd' : rest.Nodup := (List.nodup_cons.mp hnd).2
      have hknr : k ∉ rest := (List.nodup_cons.mp hnd).1
      have hmem' : ∀ k' ∈ rest, k' ∈ bkNames s2.bks := by
        intro k' hk'
        rw [hn2]
        exact hmem k' (List.mem_cons_of_mem k hk')
      obtain ⟨s', hs', hf', he', hrj', hje', hn', hc', hin', hout'⟩ := ih s2 hnd' hmem'
      refine ⟨s', ?_, hf'.trans hf2, he'.trans he2, hrj'.trans hrj2, hje'.trans hje2,
        hn'.trans hn2, hc'.trans hc2, ?_, ?_⟩
      · rw [List.foldlM_cons, hs2, except_bind_ok]
        exact hs'
      · intro k' hk'
        rcases List.mem_cons.mp hk' with hk' | hk'
        · subst hk'
          obtain ⟨ha, hb⟩ := hout' k' hknr
          exact ⟨ha.trans hjk2, hb.trans hfk2⟩
        · have hne : k' ≠ k := fun h => hknr (h ▸ hk')
          obtain ⟨hjin, hfin⟩ := hin' k' hk'
          obtain ⟨hjo, hfo⟩ := hoth2 k' hne
          constructor
          · rw [hjin, hjo]
          · rw [hfin, hfo, extraOf_congr n onc d k' s2.bks s.bks hc2]
      · intro j hj
        have hj1 : j ≠ k := fun h => hj (h ▸ List.mem_cons_self k rest)
        have hjr : j ∉ rest := fun h => hj (List.mem_cons_of_mem k h)
        obtain ⟨ha, hb⟩ := hout' j hjr
        obtain ⟨hc, hd⟩ := hoth2 j hj1
        exact ⟨ha.trans hc, hb.trans hd⟩

theorem visitDefault_single (n : Nat) (onc : Bool) (p : Pred) (st : CState) (k : String)
    (hK : keyspacesOf (bkNames st.bks) p = [k])
    (hand : (dnfMap p).isAnd = false)
    (hflag : st.recursionFlag = false)
    (hplan : ∀ b, findBK st.bks k = some b → b.planDone = false) :
    visitDefaultF (n + 1) onc p st =
      .ok { st with bks :=
        appendFilter st.bks k ⟨dnfMap p, some p, [k], onc, false⟩ false } := by
  have hct : p.constTruth = false := by
    by_contra hct
    rw [Bool.not_eq_false] at hct
    rw [keyspacesOf_constTruth _ _ hct] at hK
    exact List.noConfusion hK
  have hKne : (keyspacesOf (bkNames st.bks) p).isEmpty = false := by
    rw [hK]
    rfl
  have hkmem : k ∈ bkNames st.bks :=
    mem_keyspacesOf _ p k (hK ▸ List.mem_cons_self k [])
  obtain ⟨b, hb, hbn⟩ := findBK_isSome_of_mem st.bks k hkmem
  rw [visitDefaultF_default n onc p st hct hKne hand, hK]
  have hpd : b.planDone = false := hplan b hb
  cases onc <;>
    simp only [List.length_cons, List.length_nil, beq_self_eq_true, if_true, hflag,
      Bool.false_eq_true, if_false, List.filter_cons, List.filter_nil, hb, hpd,
      Bool.not_false, List.foldlM_cons, List.foldlM_nil, vdStep, except_bind_ok] <;>
    rfl

theorem extract_ok_of_fuel (n : Nat) (onc : Bool) (d : Pred)
    (hsz : ∀ dj ∈ d.orLeaves, ∀ c ∈ dj.conjuncts, 3 * c.nsize ≤ n) :
    ∀ (k : String) (bks : List BaseKeyspace), bks ≠ [] →
      ∃ r, extractCore (vdClassify n onc) d k bks = .ok r := by
  intro k bks hbks
  refine extractCore_ok _ d k bks ?_
  intro dj hdj
  refine vdClassify_ok n onc dj (freshState bks) (copyBKs_ne_nil' bks hbks) ?_
  intro c hc s2
  exact visitDefaultF_ok n onc c s2 (hsz dj hdj c hc)

theorem visitDefault_multi (n : Nat) (onc : Bool) (p : Pred) (st : CState)
    (hlen : 2 ≤ (keyspacesOf (bkNames st.bks) p).length)
    (hand : (dnfMap p).isAnd = false)
    (hjoin : st.recursionJoin = false)
    (hplan : ∀ k ∈ keyspacesOf (bkNames st.bks) p, ∀ b,
        findBK st.bks k = some b → b.planDone = false)
    (hfuel : 3 * p.nsize ≤ n + 1) :
    ∃ st', visitDefaultF (n + 1) onc p st = .ok st' ∧
      bkNames st'.bks = bkNames st.bks ∧
      (∀ k ∈ keyspacesOf (bkNames st.bks) p,
        joinfiltersOfL st'.bks k = joinfiltersOfL st.bks k ++
          [⟨dnfMap p, some p, keyspacesOf (bkNames st.bks) p, onc, true⟩] ∧
        filtersOfL st'.bks k =
          filtersOfL st.bks k ++ extraOf n onc (dnfMap p) k st.bks) ∧
      (∀ j, j ∉ keyspacesOf (bkNames st.bks) p →
        joinfiltersOfL st'.bks j = joinfiltersOfL st.bks j ∧
        filtersOfL st'.bks j = filtersOfL st.bks j) := by
  have hct : p.constTruth = false := by
    by_contra hct
    rw [Bool.not_eq_false] at hct
    rw [keyspacesOf_constTruth _ _ hct] at hlen
    simp at hlen
  have hKne : (keyspacesOf (bkNames st.bks) p).isEmpty = false := by
    cases h : keyspacesOf (bkNames st.bks) p with
    | nil => rw [h] at hlen; simp at hlen
    | cons a l => rfl
  have hlen1 : ((keyspacesOf (bkNames st.bks) p).length == 1) = false :=
    beq_eq_false_iff_ne.mpr (by omega)
  have hdec : decide (1 < (keyspacesOf (bkNames st.bks) p).length) = true :=
    decide_eq_true (by omega)
  have hK2 : (if onc then
      (keyspacesOf (bkNames st.bks) p).filter (fun k' =>
        match findBK st.bks k' with
        | some b => !b.planDone
        | none => true)
      else keyspacesOf (bkNames st.bks) p) = keyspacesOf (bkNames st.bks) p := by
    cases onc
    · rfl
    · rw [if_pos rfl, List.filter_eq_self]
      intro a ha
      obtain ⟨b, hb, _⟩ := findBK_isSome_of_mem st.bks a (mem_keyspacesOf _ p a ha)
      simp only [hb, hplan a ha b hb, Bool.not_false]
  have hext : (dnfMap p).isOr = true → ∀ (k : String) (bks : List BaseKeyspace), bks ≠ [] →
      ∃ r, extractCore (vdClassify n onc) (dnfMap p) k bks = .ok r := by
    intro hor
    refine extract_ok_of_fuel n onc (dnfMap p) ?_
    intro dj hdj c hc
    have h1 : dj.nsize < (dnfMap p).nsize := mem_orLeaves_nsize_lt (dnfMap p) hor dj hdj
    have h2 : c.nsize ≤ dj.nsize := mem_conjuncts_nsize dj c hc
    have h3 : (dnfMap p).nsize ≤ p.nsize := dnfMap_nsize p
    omega
  obtain ⟨s', hs', _, _, _, _, hn', _, hin', hout'⟩ :=
    vdStep_fold n onc (dnfMap p) (keyspacesOf (bkNames st.bks) p)
      ⟨dnfMap p, some p, keyspacesOf (bkNames st.bks) p, onc, true⟩ hlen1 hext
      (keyspacesOf (bkNames st.bks) p) st (keyspacesOf_nodup _ p)
      (fun k hk => mem_keyspacesOf _ p k hk)
  refine ⟨s', ?_, hn', hin', hout'⟩
  rw [visitDefaultF_default n onc p st hct hKne hand]
  simp only [hlen1, Bool.false_eq_true, if_false, hjoin, hK2, hdec]
  exact hs'

/-! ### C5: attribution of a conjunct to filters vs joinfilters -/

/-- A two-keyspace table, both keyspaces still unplanned. -/
def bksAB : List BaseKeyspace :=
  [⟨"A", false, [], []⟩, ⟨"B", false, [], []⟩]

/-- The classifier state over `bksAB` with both recursion flags clear. -/
def stAB : CState := ⟨bksAB, false, none, false, none⟩

/-- C5: for a conjunct `p` processed by `visitDefault` (not rewritten to an
AND by the DNF transform, outside the AND-recursion, no keyspace already
planned, enough fuel): if `p` references exactly one base keyspace `k`, a
filter for `p` is appended to `k`'s `filters` and no `joinfilters` entry
changes; if `p` references two or more base keyspaces, a joinfilter for `p`
is appended to the `joinfilters` of every referenced keyspace and to no
other, so the conjunct appears in exactly `|keyspaces(p)|` joinfilters
lists. -/
theorem classifier_filter_attribution (n : Nat) (onc : Bool) (p : Pred) (st : CState)
    (hand : (dnfMap p).isAnd = false)
    (hflag : st.recursionFlag = false) (hjoin : st.recursionJoin = false)
    (hplan : st.bks.all (fun b => !b.planDone) = true)
    (hfuel : 3 * p.nsize ≤ n + 1) :
    (∀ k, keyspacesOf (bkNames st.bks) p = [k] →
      ∃ st', visitDefaultF (n + 1) onc p st = .ok st' ∧
        filtersOfL st'.bks k = filtersOfL st.bks k ++
          [⟨dnfMap p, some p, [k], onc, false⟩] ∧
        (∀ j, joinfiltersOfL st'.bks j = joinfiltersOfL st.bks j) ∧
        (∀ j, j ≠ k → filtersOfL st'.bks j = filtersOfL st.bks j)) ∧
    (2 ≤ (keyspacesOf (bkNames st.bks) p).length →
      ∃ st', visitDefaultF (n + 1) onc p st = .ok st' ∧
        (∀ k ∈ keyspacesOf (bkNames st.bks) p,
          joinfiltersOfL st'.bks k = joinfiltersOfL st.bks k ++
            [⟨dnfMap p, some p, keyspacesOf (bkNames st.bks) p, onc, true⟩]) ∧
        (∀ j, j ∉ keyspacesOf (bkNames st.bks) p →
          joinfiltersOfL st'.bks j = joinfiltersOfL st.bks j)) := by
  have hplan' : ∀ k ∈ keyspacesOf (bkNames st.bks) p, ∀ b,
      findBK st.bks k = some b → b.planDone = false := by
    intro k _ b hb
    have hmem : b ∈ st.bks := List.mem_of_find?_eq_some hb
    have h2 := List.all_eq_true.mp hplan b hmem
    simpa using h2
  constructor
  · intro k hK
    have hkK : k ∈ keyspacesOf (bkNames st.bks) p := by
      rw [hK]
      exact List.mem_cons_self k []
    have hkmem : k ∈ bkNames st.bks := mem_keyspacesOf _ p k hkK
    refine ⟨_, visitDefault_single n onc p st k hK hand hflag (hplan' k hkK), ?_, ?_, ?_⟩
    · exact filtersOfL_appendFilter_self st.bks k _ hkmem
    · intro j
      exact joinfiltersOfL_appendFilter_false st.bks k j _
    · intro j hj
      exact filtersOfL_appendFilter_other st.bks k j _ false hj
  · intro hlen
    obtain ⟨st', h1, _, hin, hout⟩ := visitDefault_multi n onc p st hlen hand hjoin hplan' hfuel
    exact ⟨st', h1, fun k hk => (hin k hk).1, fun j hj => (hout j hj).1⟩

theorem classifier_filter_attribution_witness :
    ((∀ k, keyspacesOf (bkNames stAB.bks) (Pred.atom ["A", "B"] 1) = [k] →
      ∃ st', visitDefaultF 3 false (Pred.atom ["A", "B"] 1) stAB = .ok st' ∧
        filtersOfL st'.bks k = filtersOfL stAB.bks k ++
          [⟨dnfMap (Pred.atom ["A", "B"] 1), some (Pred.atom ["A", "B"] 1), [k],
            false, false⟩] ∧
        (∀ j, joinfiltersOfL st'.bks j = joinfiltersOfL stAB.bks j) ∧
        (∀ j, j ≠ k → filtersOfL st'.bks j = filtersOfL stAB.bks j)) ∧
    (2 ≤ (keyspacesOf (bkNames stAB.bks) (Pred.atom ["A", "B"] 1)).length →
      ∃ st', visitDefaultF 3 false (Pred.atom ["A", "B"] 1) stAB = .ok st' ∧
        (∀ k ∈ keyspacesOf (bkNames stAB.bks) (Pred.atom ["A", "B"] 1),
          joinfiltersOfL st'.bks k = joinfiltersOfL stAB.bks k ++
            [⟨dnfMap (Pred.atom ["A", "B"] 1), some (Pred.atom ["A", "B"] 1),
              keyspacesOf (bkNames stAB.bks) (Pred.atom ["A", "B"] 1), false, true⟩]) ∧
        (∀ j, j ∉ keyspacesOf (bkNames stAB.bks) (Pred.atom ["A", "B"] 1) →
          joinfiltersOfL st'.bks j = joinfiltersOfL stAB.bks j))) :=
  classifier_filter_attribution 2 false (Pred.atom ["A", "B"] 1) stAB (by decide) rfl rfl
    (by decide) (by decide)

/-! ### C6: counting filters entries against AND-arity -/

theorem all_planDone_appendFilter (bks : List BaseKeyspace) (k : String) (f : Filter)
    (tj : Bool) :
    (appendFilter bks k f tj).all (fun b => !b.planDone) =
      bks.all (fun b => !b.planDone) := by
  unfold appendFilter
  rw [List.all_map]
  have hfun : ((fun b => !b.planDone) ∘
      (fun b : BaseKeyspace =>
        if b.name == k then
          if tj then { b with joinfilters := b.joinfilters ++ [f] }
          else { b with filters := b.filters ++ [f] }
        else b)) = (fun b : BaseKeyspace => !b.planDone) := by
    funext b
    rw [Function.comp_apply]
    by_cases h : (b.name == k) = true
    · rw [if_pos h]
      cases tj <;> rfl
    · rw [if_neg h]
  rw [hfun]

theorem classify_fold_count (n : Nat) (onc : Bool) :
    ∀ (cs : List Pred) (st : CState),
      (bkNames st.bks).Nodup →
      st.recursionFlag = false →
      st.bks.all (fun b => !b.planDone) = true →
      (∀ c ∈ cs, c.constTruth = true ∨
        ((dnfMap c).isAnd = false ∧ ∃ k, keyspacesOf (bkNames st.bks) c = [k])) →
      ∃ st', cs.foldlM (fun s c => visitDefaultF (n + 1) onc c s) st = .ok st' ∧
        sumFilters st'.bks = sumFilters st.bks +
          (cs.length - (cs.filter (·.constTruth)).length) ∧
        bkNames st'.bks = bkNames st.bks := by
  intro cs
  induction cs with
  | nil =>
      intro st _ _ _ _
      exact ⟨st, rfl, by simp, rfl⟩
  | cons c rest ih =>
      intro st hnd hflag hplan hconj
      rcases hconj c (List.mem_cons_self c rest) with hct | ⟨hcand, k, hK⟩
      · obtain ⟨st', h1, h2, h3⟩ := ih st hnd hflag hplan
          (fun c' hc' => hconj c' (List.mem_cons_of_mem c hc'))
        refine ⟨st', ?_, ?_, h3⟩
        · rw [List.foldlM_cons, visitDefaultF_constTruth n onc c st hct, except_bind_ok]
          exact h1
        · rw [h2, List.length_cons, List.filter_cons_of_pos (by simpa using hct)]
          have hle := List.length_filter_le (·.constTruth) rest
          simp only [List.length_cons]
          omega
      · have hkK : k ∈ keyspacesOf (bkNames st.bks) c := by
          rw [hK]
          exact List.mem_cons_self k []
        have hkmem : k ∈ bkNames st.bks := mem_keyspacesOf _ c k hkK
        have hplank : ∀ b, findBK st.bks k = some b → b.planDone = false := by
          intro b hb
          have hmem : b ∈ st.bks := List.mem_of_find?_eq_some hb
          have h2 := List.all_eq_true.mp hplan b hmem
          simpa using h2
        have hstep := visitDefault_single n onc c st k hK hcand hflag hplank
        set st1 : CState :=
          { st with bks := appendFilter st.bks k ⟨dnfMap c, some c, [k], onc, false⟩ false }
          with hst1
        have hnames1 : bkNames st1.bks = bkNames st.bks :=
          bkNames_appendFilter st.bks k _ false
        have hct' : c.constTruth = false := by
          by_contra hc
          rw [Bool.not_eq_false] at hc
          rw [keyspacesOf_constTruth _ _ hc] at hK
          exact List.noConfusion hK
        obtain ⟨st', h1, h2, h3⟩ := ih st1 (hnames1 ▸ hnd) hflag
          ((all_planDone_appendFilter st.bks k _ false).trans hplan)
          (fun c' hc' => by
            rw [hnames1]
            exact hconj c' (List.mem_cons_of_mem c hc'))
        refine ⟨st', ?_, ?_, h3.trans hnames1⟩
        · rw [List.foldlM_cons, hstep, except_bind_ok]
          exact h1
        · have hsum1 : sumFilters st1.bks = sumFilters st.bks + 1 :=
            sumFilters_appendFilter k _ st.bks hnd hkmem
          rw [h2, hsum1, List.length_cons, List.filter_cons_of_neg (by simpa using hct')]
          have hle := List.length_filter_le (·.constTruth) rest
          omega

/-- C6 (amended): `ClassifyExpr` drops constant-true conjuncts (they leave
the state untouched), and when every non-constant conjunct references
exactly one base keyspace (and is not rewritten to an AND by the DNF
transform), the total number of `filters` entries gained across the base
keyspaces equals the AND-arity of the input minus the number of
constant-true conjuncts. (Unqualified, the original count is wrong:
multi-keyspace conjuncts are recorded in `joinfilters`, not `filters`.) -/
theorem classifier_filters_sum (n : Nat) (onc : Bool) (p : Pred) (st : CState)
    (hnd : (bkNames st.bks).Nodup)
    (hflag : st.recursionFlag = false)
    (hplan : st.bks.all (fun b => !b.planDone) = true)
    (hconj : ∀ c ∈ p.conjuncts, c.constTruth = true ∨
      ((dnfMap c).isAnd = false ∧ ∃ k, keyspacesOf (bkNames st.bks) c = [k]))
    (hbks : st.bks.isEmpty = false) :
    (∀ c, c.constTruth = true → visitDefaultF (n + 1) onc c st = .ok st) ∧
    ∃ st', classifyF (n + 1) onc p st = .ok st' ∧
      sumFilters st'.bks = sumFilters st.bks +
        (p.conjuncts.length - (p.conjuncts.filter (·.constTruth)).length) := by
  constructor
  · intro c hc
    exact visitDefaultF_constTruth n onc c st hc
  · obtain ⟨st', h1, h2, _⟩ := classify_fold_count n onc p.conjuncts st hnd hflag hplan hconj
    refine ⟨st', ?_, h2⟩
    unfold classifyF
    rw [hbks]
    simp only [Bool.false_eq_true, if_false]
    exact h1

theorem classifier_filters_sum_witness :
    ((∀ c, c.constTruth = true →
      visitDefaultF 3 false c stAB = .ok stAB) ∧
    ∃ st', classifyF 3 false
        (Pred.and (Pred.and Pred.tt (Pred.atom ["A"] 0)) (Pred.atom ["B"] 2)) stAB = .ok st' ∧
      sumFilters st'.bks = sumFilters stAB.bks +
        ((Pred.and (Pred.and Pred.tt (Pred.atom ["A"] 0))
            (Pred.atom ["B"] 2)).conjuncts.length -
          ((Pred.and (Pred.and Pred.tt (Pred.atom ["A"] 0))
            (Pred.atom ["B"] 2)).conjuncts.filter (·.constTruth)).length)) :=
  classifier_filters_sum 2 false
    (Pred.and (Pred.and Pred.tt (Pred.atom ["A"] 0)) (Pred.atom ["B"] 2)) stAB
    (by decide) rfl (by decide)
    (by
      intro c hc
      have hc' : c ∈ [Pred.tt, Pred.atom ["A"] 0, Pred.atom ["B"] 2] := hc
      simp only [List.mem_cons, List.not_mem_nil, or_false] at hc'
      rcases hc' with rfl | rfl | rfl
      · exact Or.inl rfl
      · exact Or.inr ⟨rfl, "A", rfl⟩
      · exact Or.inr ⟨rfl, "B", rfl⟩)
    rfl

/-- C6 counterexample: a single conjunct that references two base keyspaces
is recorded as a joinfilter, so the sum over all keyspaces of `filters`
entries is 0 while the AND-arity minus constant-true conjuncts is 1. -/
theorem classifier_filters_sum_cex :
    (match classifyF 3 false (Pred.atom ["A", "B"] 1) stAB with
     | .ok st' => sumFilters st'.bks
     | .error _ => 99) = 0 ∧
    (Pred.atom ["A", "B"] 1).conjuncts.length -
      ((Pred.atom ["A", "B"] 1).conjuncts.filter (·.constTruth)).length = 1 := by
  exact ⟨rfl, rfl⟩

/-! ### C7: the OR extraction refines its specification -/

/-- Specification-side reading of one disjunct's treatment in
`extractExpr` (from the spec's words): classify the disjunct against a
fresh copy of the base-keyspace table and fold the `filters` entries it
produced for keyspace `k` as an inner AND (`none` when the disjunct
contributed nothing to `k`). -/
def fragmentOf (classify : Pred → CState → Except CErr CState) (k : String)
    (bks : List BaseKeyspace) (dj : Pred) : Except CErr (Option Pred) :=
  (classify dj (freshState bks)).map (fun st' =>
    andFoldOpt ((filtersOfL st'.bks k).map (·.fltrExpr)))

/-- Specification-side reading of `extractExpr` (from the spec's words):
compute every disjunct's fragment for `k`, and when every disjunct yields
one, re-wrap the fragments as a new OR; otherwise extract nothing. -/
def extractSpec (classify : Pred → CState → Except CErr CState) (d : Pred)
    (k : String) (bks : List BaseKeyspace) : Except CErr (Option Pred) :=
  (d.orLeaves.mapM (fragmentOf classify k bks)).map (fun frags =>
    if frags.all (·.isSome) then orFoldOpt (frags.filterMap id) else none)

theorem mapM_ok {α β : Type} (f : α → Except CErr β) :
    ∀ (l : List α), (∀ a ∈ l, ∃ b, f a = .ok b) → ∃ bs, l.mapM f = .ok bs := by
  intro l
  induction l with
  | nil =>
      intro _
      exact ⟨[], by rw [List.mapM_nil]; rfl⟩
  | cons a rest ih =>
      intro h
      obtain ⟨b, hb⟩ := h a (List.mem_cons_self a rest)
      obtain ⟨bs, hbs⟩ := ih (fun x hx => h x (List.mem_cons_of_mem a hx))
      exact ⟨b :: bs, by rw [List.mapM_cons, hb, except_bind_ok, hbs, except_bind_ok]; rfl⟩

theorem extractLoop_fst_eq (classify : Pred → CState → Except CErr CState) (k : String)
    (bks : List BaseKeyspace) :
    ∀ (ds : List Pred) (acc no : List Pred) (isJ : Bool),
      (∀ dj ∈ ds, ∃ s', classify dj (freshState bks) = .ok s') →
      Except.map (Option.map (·.1)) (extractLoop classify k bks ds acc no isJ) =
        Except.map (fun frags =>
            if frags.all (·.isSome) then orFoldOpt (acc ++ frags.filterMap id) else none)
          (ds.mapM (fragmentOf classify k bks)) := by
  intro ds
  induction ds with
  | nil =>
      intro acc no isJ _
      rw [List.mapM_nil]
      show Except.ok (Option.map (·.1)
          ((orFoldOpt acc).map (fun np => (np, orFoldOpt no, isJ)))) =
        Except.ok (orFoldOpt (acc ++ []))
      rw [List.append_nil]
      cases acc <;> rfl
  | cons dj rest ih =>
      intro acc no isJ hok
      obtain ⟨s', hs'⟩ := hok dj (List.mem_cons_self dj rest)
      have hokr : ∀ d' ∈ rest, ∃ s2, classify d' (freshState bks) = .ok s2 :=
        fun d' hd' => hok d' (List.mem_cons_of_mem dj hd')
      have hokr' : ∀ d' ∈ rest, ∃ b, fragmentOf classify k bks d' = .ok b := by
        intro d' hd'
        obtain ⟨s2, hs2⟩ := hokr d' hd'
        exact ⟨_, by unfold fragmentOf; rw [hs2]; rfl⟩
      obtain ⟨bs, hbs⟩ := mapM_ok _ rest hokr'
      have hfrag : fragmentOf classify k bks dj =
          .ok (andFoldOpt ((filtersOfL s'.bks k).map (·.fltrExpr))) := by
        unfold fragmentOf
        rw [hs']
        rfl
      rw [extractLoop, List.mapM_cons, hfrag, except_bind_ok, hbs, except_bind_ok, hs',
        except_bind_ok]
      dsimp only
      cases hA : andFoldOpt ((filtersOfL s'.bks k).map (·.fltrExpr)) with
      | none => rfl
      | some t =>
          rw [ih (acc ++ [t]) _ _ hokr, hbs]
          show Except.ok _ = Except.ok _
          by_cases hall : bs.all (·.isSome) = true
          · simp [hall, List.filterMap_cons, List.append_assoc]
          · simp [hall]

theorem extractCore_fst_eq_spec (classify : Pred → CState → Except CErr CState)
    (d : Pred) (k : String) (bks : List BaseKeyspace)
    (hok : ∀ dj ∈ d.orLeaves, ∃ s', classify dj (freshState bks) = .ok s')
    (hct : (d.orLeaves.any (·.constTruth)) = false) :
    Except.map (Option.map (·.1)) (extractCore classify d k bks) =
      extractSpec classify d k bks := by
  unfold extractCore extractSpec
  dsimp only
  rw [hct]
  simp only [Bool.false_eq_true, if_false]
  rw [extractLoop_fst_eq classify k bks d.orLeaves [] [] false hok]
  rfl

/-- C7: for a conjunct whose DNF form is an OR referencing two or more base
keyspaces (no constant-true disjunct, recursion flags clear, no keyspace
already planned, enough fuel), `visitDefault` appends the multi-keyspace
joinfilter to every referenced keyspace, and for each referenced keyspace
`k` the extraction it attempts agrees with `extractSpec` — classify each
disjunct against a fresh copy of the table and fold its filters for `k` as
an inner AND — so that exactly when every disjunct yields a fragment, the
fragments re-wrapped as a new OR are appended as an additional
single-keyspace filter on `k`. -/
theorem classifier_or_extraction (n : Nat) (onc : Bool) (p : Pred) (st : CState)
    (hor : (dnfMap p).isOr = true)
    (hct : ((dnfMap p).orLeaves.any (·.constTruth)) = false)
    (hlen : 2 ≤ (keyspacesOf (bkNames st.bks) p).length)
    (hjoin : st.recursionJoin = false)
    (hplan : st.bks.all (fun b => !b.planDone) = true)
    (hfuel : 3 * p.nsize ≤ n + 1) :
    ∃ st', visitDefaultF (n + 1) onc p st = .ok st' ∧
      ∀ k ∈ keyspacesOf (bkNames st.bks) p,
        joinfiltersOfL st'.bks k = joinfiltersOfL st.bks k ++
          [⟨dnfMap p, some p, keyspacesOf (bkNames st.bks) p, onc, true⟩] ∧
        ∃ r, extractSpec (vdClassify n onc) (dnfMap p) k st.bks = .ok r ∧
          ((r = none ∧ filtersOfL st'.bks k = filtersOfL st.bks k) ∨
           (∃ np fl, r = some np ∧
             filtersOfL st'.bks k = filtersOfL st.bks k ++ [fl] ∧
             fl.fltrExpr = np ∧ fl.keyspaces = [k] ∧ fl.onclause = onc)) := by
  have hand : (dnfMap p).isAnd = false := by
    cases hdp : dnfMap p <;> simp_all [Pred.isOr, Pred.isAnd]
  have hone : keyspacesOf (bkNames st.bks) p ≠ [] := by
    intro h
    rw [h] at hlen
    simp at hlen
  obtain ⟨k0, hk0⟩ : ∃ k0, k0 ∈ keyspacesOf (bkNames st.bks) p := by
    cases h : keyspacesOf (bkNames st.bks) p with
    | nil => exact absurd h hone
    | cons a l => exact ⟨a, h ▸ List.mem_cons_self a l⟩
  have hbksne : st.bks ≠ [] := ne_nil_of_mem_bkNames st.bks k0 (mem_keyspacesOf _ p k0 hk0)
  have hsz : ∀ dj ∈ (dnfMap p).orLeaves, ∀ c ∈ dj.conjuncts, 3 * c.nsize ≤ n := by
    intro dj hdj c hc
    have h1 := mem_orLeaves_nsize_lt (dnfMap p) hor dj hdj
    have h2 := mem_conjuncts_nsize dj c hc
    have h3 := dnfMap_nsize p
    omega
  have hok : ∀ dj ∈ (dnfMap p).orLeaves, ∃ s',
      vdClassify n onc dj (freshState st.bks) = .ok s' := by
    intro dj hdj
    refine vdClassify_ok n onc dj (freshState st.bks) (copyBKs_ne_nil' st.bks hbksne) ?_
    intro c hc s2
    exact visitDefaultF_ok n onc c s2 (hsz dj hdj c hc)
  have hplan' : ∀ k ∈ keyspacesOf (bkNames st.bks) p, ∀ b,
      findBK st.bks k = some b → b.planDone = false := by
    intro k _ b hb
    have hmem : b ∈ st.bks := List.mem_of_find?_eq_some hb
    have h2 := List.all_eq_true.mp hplan b hmem
    simpa using h2
  obtain ⟨st', h1, _, hin, _⟩ := visitDefault_multi n onc p st hlen hand hjoin hplan' hfuel
  refine ⟨st', h1, ?_⟩
  intro k hk
  obtain ⟨hjf, hff⟩ := hin k hk
  refine ⟨hjf, ?_⟩
  obtain ⟨r0, hr0⟩ := extract_ok_of_fuel n onc (dnfMap p) hsz k st.bks hbksne
  have hspec : extractSpec (vdClassify n onc) (dnfMap p) k st.bks =
      .ok (Option.map (·.1) r0) := by
    rw [← extractCore_fst_eq_spec (vdClassify n onc) (dnfMap p) k st.bks hok hct, hr0]
    rfl
  refine ⟨Option.map (·.1) r0, hspec, ?_⟩
  rcases r0 with _ | ⟨np, no, oj⟩
  · left
    refine ⟨rfl, ?_⟩
    rw [hff]
    have hz : extraOf n onc (dnfMap p) k st.bks = [] := by
      unfold extraOf
      rw [if_pos hor, hr0]
    rw [hz, List.append_nil]
  · right
    refine ⟨np, ⟨np, no, [k], onc, oj⟩, rfl, ?_, rfl, rfl, rfl⟩
    rw [hff]
    have hz : extraOf n onc (dnfMap p) k st.bks = [(⟨np, no, [k], onc, oj⟩ : Filter)] := by
      unfold extraOf
      rw [if_pos hor, hr0]
    rw [hz]

/-- The two-keyspace OR of per-keyspace conjunctions used as the C7 witness
input: `(a1 AND b2) OR (a3 AND b4)`. -/
def orAB : Pred :=
  Pred.or (Pred.and (Pred.atom ["A"] 1) (Pred.atom ["B"] 2))
    (Pred.and (Pred.atom ["A"] 3) (Pred.atom ["B"] 4))

theorem classifier_or_extraction_witness :
    ∃ st', visitDefaultF 21 false orAB stAB = .ok st' ∧
      ∀ k ∈ keyspacesOf (bkNames stAB.bks) orAB,
        joinfiltersOfL st'.bks k = joinfiltersOfL stAB.bks k ++
          [⟨dnfMap orAB, some orAB, keyspacesOf (bkNames stAB.bks) orAB, false, true⟩] ∧
        ∃ r, extractSpec (vdClassify 20 false) (dnfMap orAB) k stAB.bks = .ok r ∧
          ((r = none ∧ filtersOfL st'.bks k = filtersOfL stAB.bks k) ∨
           (∃ np fl, r = some np ∧
             filtersOfL st'.bks k = filtersOfL stAB.bks k ++ [fl] ∧
             fl.fltrExpr = np ∧ fl.keyspaces = [k] ∧ fl.onclause = false)) :=
  classifier_or_extraction 20 false orAB stAB (by decide) (by decide) (by decide) rfl
    (by decide) (by decide)

end Query
